import Mathlib

/-!
Verification of the safe deletion and cleanup engine of cleanmymac_core.py.

The filesystem is modelled as a finite tree of nodes: regular files and
symbolic links carry their own lstat size, directories carry an ordered
association list of named children.  An absolute path is a list of
component names, and the root of the tree is the empty path.  Machine
level failures that the source reacts to (scandir permission denial,
lstat failure, unlink failure, rmtree failure) are modelled by a
permission oracle keyed by path; every other OS error class is the
constructor OsErr.other, which the source does not catch and which the
embedding therefore propagates in an Except.  The source file and line
references in the comments point into src/cleanmymac_core.py.
-/

set_option maxHeartbeats 2000000

inductive FsNode where
  | file (size : Nat)
  | symlink (target : List String) (size : Nat)
  | dir (children : List (String × FsNode))

/-- First child of a directory child list with the given name, as a raw
directory lookup returns it (mirrors the unique-name lookup an OS
directory performs). -/
def childLookup (cs : List (String × FsNode)) (k : String) : Option FsNode :=
  (cs.find? (fun e => e.1 == k)).map (fun e => e.2)

/-- Node addressed by a path, following no symbolic links at all. -/
def lookupRaw : FsNode → List String → Option FsNode
  | nd, [] => some nd
  | FsNode.dir cs, k :: rest =>
    match childLookup cs k with
    | some c => lookupRaw c rest
    | none => none
  | _, _ :: _ => none

/-- Bound on symbolic link traversal during resolution, standing in for
the bounded link following of the OS. -/
def symlinkFuel : Nat := 40

/-- One resolution pass over the remaining components: non-symlink
components (including missing ones, kept as written) are moved into the
accumulator; the first symbolic link met hands the spliced-in absolute
target plus the remaining components to the continuation, which resumes
resolution with one less unit of link budget. -/
def resolveSeg (fs : FsNode) (onLink : List String → List String) :
    List String → List String → List String
  | acc, [] => acc
  | acc, c :: rest =>
    match lookupRaw fs (acc ++ [c]) with
    | some (FsNode.symlink t _) => onLink (t ++ rest)
    | _ => resolveSeg fs onLink (acc ++ [c]) rest

/-- Non-strict path resolution: symbolic links met along the path are
spliced in (targets are modelled as absolute), missing components are
kept as written, and when the symlink traversal budget runs out the
remainder is kept unresolved, as Path.resolve with strict=False behaves
(cleanmymac_core.py line 27). -/
def resolveAux (fs : FsNode) : Nat → List String → List String
  | 0, p => p
  | links + 1, p => resolveSeg fs (resolveAux fs links) [] p

def resolve (fs : FsNode) (p : List String) : List String :=
  resolveAux fs symlinkFuel p

/-- is_within (cleanmymac_core.py lines 25-36): both paths are resolved
and target must be equal to or a descendant of base; relative_to
succeeds exactly when the resolved base is a component prefix of the
resolved target.  With strict=False resolution no FileNotFoundError is
raised, so the except branch of the source adds nothing here. -/
def is_within (fs : FsNode) (base target : List String) : Bool :=
  (resolve fs base).isPrefixOf (resolve fs target)

/-- Size an lstat call reports for the node itself: link size for a
symbolic link, byte size for a regular file. -/
def nodeSize : FsNode → Nat
  | FsNode.file sz => sz
  | FsNode.symlink _ sz => sz
  | FsNode.dir _ => 0

/-- S_ISDIR of the lstat mode and not S_ISLNK: true exactly for a real
directory node (cleanmymac_core.py line 119). -/
def isDirN : FsNode → Bool
  | FsNode.dir _ => true
  | _ => false

/-- Classification os.DirEntry.is_dir performs with follow_symlinks
left true: a directory, or a symbolic link that resolves to one. -/
def dirFollowB (fs : FsNode) : FsNode → Bool
  | FsNode.dir _ => true
  | FsNode.file _ => false
  | FsNode.symlink t _ =>
    match lookupRaw fs (resolve fs t) with
    | some (FsNode.dir _) => true
    | _ => false

/-- Error classes the source distinguishes: FileNotFoundError, denial
by PermissionError, and every other OSError class (ENOTDIR, ELOOP, ...)
which the delete primitive does not catch. -/
inductive OsErr where
  | enoent
  | eacces
  | other
deriving DecidableEq

/-- Per-path oracle for the OS calls that may be denied or fail:
readOk is scandir and walk enumeration, statOk is lstat and stat,
unlinkOk is os.unlink, rmtreeOk is shutil.rmtree completing. -/
structure Perm where
  readOk : List String → Bool
  statOk : List String → Bool
  unlinkOk : List String → Bool
  rmtreeOk : List String → Bool

def permAll : Perm :=
  { readOk := fun _ => true
    statOk := fun _ => true
    unlinkOk := fun _ => true
    rmtreeOk := fun _ => true }

/-- os.lstat: intermediate components are resolved through symbolic
links, the final component is not dereferenced.  A missing entry or a
parent that exists and is not a directory give the error class the OS
gives (ENOENT, ENOTDIR); denial comes from the oracle. -/
def lstatE (fs : FsNode) (perm : Perm) (p : List String) : Except OsErr FsNode :=
  if perm.statOk p = false then Except.error OsErr.eacces else
  match p.getLast? with
  | none => Except.ok fs
  | some n =>
    match lookupRaw fs (resolve fs p.dropLast) with
    | some (FsNode.dir cs) =>
      match childLookup cs n with
      | some c => Except.ok c
      | none => Except.error OsErr.enoent
    | some _ => Except.error OsErr.other
    | none => Except.error OsErr.enoent

/-- Removal of the directory entry at a raw path (the entry together
with its whole subtree, as unlink of a leaf or a completed rmtree). -/
def removeRaw : FsNode → List String → FsNode
  | nd, [] => nd
  | FsNode.dir cs, [k] => FsNode.dir (cs.filter (fun e => !(e.1 == k)))
  | FsNode.dir cs, k :: r2 :: rs =>
    FsNode.dir (cs.map (fun e => if e.1 == k then (e.1, removeRaw e.2 (r2 :: rs)) else e))
  | nd, _ :: _ => nd

/-- Effect of os.unlink or a completed shutil.rmtree on the tree:
intermediate components resolved, the final entry removed in place. -/
def removeAt (fs : FsNode) (p : List String) : FsNode :=
  match p.getLast? with
  | none => fs
  | some n => removeRaw fs ((resolve fs p.dropLast) ++ [n])

/-- Path.exists, which follows symbolic links. -/
def existsB (fs : FsNode) (p : List String) : Bool :=
  (lookupRaw fs (resolve fs p)).isSome

/-- Path.is_dir, which follows symbolic links. -/
def isDirB (fs : FsNode) (p : List String) : Bool :=
  match lookupRaw fs (resolve fs p) with
  | some (FsNode.dir _) => true
  | _ => false

/-- iter_entries (cleanmymac_core.py lines 39-45): the names os.scandir
yields.  PermissionError and FileNotFoundError are caught inside the
generator itself, so a denied or vanished directory yields nothing and
no exception ever reaches the caller of the generator. -/
def iter_entries (fs : FsNode) (perm : Perm) (p : List String) : List String :=
  match lookupRaw fs (resolve fs p) with
  | some (FsNode.dir cs) =>
    if perm.readOk p = true then cs.map (fun e => e.1) else []
  | _ => []

/-- Non-directory entries of a child list, as the files component of an
os.walk step: every child whose is_dir classification (following
symbolic links) is false, paired with the directory path. -/
def walkFilesHere (fs : FsNode) (p : List String) (cs : List (String × FsNode)) :
    List (List String × String × FsNode) :=
  cs.filterMap (fun e => if dirFollowB fs e.2 = true then none else some (p, e.1, e.2))

mutual

/-- os.walk with followlinks=False and onerror=None, top down: a
directory whose scandir is denied yields nothing at all; the step for a
readable directory yields its file entries and then the walks of its
real subdirectories in order; symbolic links classified as directories
are neither entered nor listed as files. -/
def walkNode (fs : FsNode) (perm : Perm) (p : List String) : FsNode → List (List String × String × FsNode)
  | FsNode.dir cs =>
    if perm.readOk p = true then walkFilesHere fs p cs ++ walkSubs fs perm p cs else []
  | _ => []

def walkSubs (fs : FsNode) (perm : Perm) (p : List String) : List (String × FsNode) → List (List String × String × FsNode)
  | [] => []
  | (n, c) :: rest =>
    (match c with
     | FsNode.dir cs => walkNode fs perm (p ++ [n]) (FsNode.dir cs)
     | _ => []) ++ walkSubs fs perm p rest

end

/-- get_dir_size (cleanmymac_core.py lines 90-103): walks the tree
under the path and sums the lstat size of every file entry whose stat
succeeds; every OSError of the per-file stat is swallowed and the entry
skipped, and a missing or unreadable root contributes nothing.  The
walk opens its top through symbolic links, so the walked node is the
resolved one. -/
def statSize (perm : Perm) (e : List String × String × FsNode) : Nat :=
  if perm.statOk (e.1 ++ [e.2.1]) = true then nodeSize e.2.2 else 0

def get_dir_size (fs : FsNode) (perm : Perm) (p : List String) : Nat :=
  let q := resolve fs p
  match lookupRaw fs q with
  | some nd => ((walkNode fs perm q nd).map (statSize perm)).sum
  | none => 0

/-- CleanMyMac._safe_delete (cleanmymac_core.py lines 105-136).  The
containment check runs first; lstat errors of the two caught classes
give zero stats; a real directory is sized before deletion and removed
by rmtree unless dry-run; anything else is unlinked unless dry-run; a
failing rmtree or unlink is caught and gives zero stats.  The state a
failed rmtree leaves behind is not specified by the source (rmtree
stops at its first error), so it is the parameter rmfail. -/
def safe_delete (rmfail : FsNode → List String → FsNode) (fs : FsNode) (perm : Perm)
    (dry : Bool) (base target : List String) : Except OsErr ((Nat × Nat × Nat) × FsNode) :=
  if is_within fs base target = false then Except.ok ((0, 0, 0), fs) else
  match lstatE fs perm target with
  | Except.error OsErr.enoent => Except.ok ((0, 0, 0), fs)
  | Except.error OsErr.eacces => Except.ok ((0, 0, 0), fs)
  | Except.error OsErr.other => Except.error OsErr.other
  | Except.ok nd =>
    if isDirN nd = true then
      let size := get_dir_size fs perm target
      if dry = true then Except.ok ((size, 0, 1), fs)
      else if perm.rmtreeOk target = true then Except.ok ((size, 0, 1), removeAt fs target)
      else Except.ok ((0, 0, 0), rmfail fs target)
    else
      let size := nodeSize nd
      if dry = true then Except.ok ((size, 1, 0), fs)
      else if perm.unlinkOk target = true then Except.ok ((size, 1, 0), removeAt fs target)
      else Except.ok ((0, 0, 0), fs)

/-- Componentwise accumulation of one delete result into a running
CleanStats total, as the sweeps do. -/
def addStats (s b : Nat × Nat × Nat) : Nat × Nat × Nat :=
  (s.1 + b.1, s.2.1 + b.2.1, s.2.2 + b.2.2)

/-- The per-entry loop every sweep runs: each target through
_safe_delete against the base, stats accumulated; an exception from a
delete stops the loop, carrying the stats and state reached so far. -/
def sweepFold (rmfail : FsNode → List String → FsNode) (perm : Perm) (dry : Bool)
    (base : List String) : FsNode → (Nat × Nat × Nat) → List (List String) →
    (Nat × Nat × Nat) × FsNode × Option OsErr
  | g, s, [] => (s, g, none)
  | g, s, t :: rest =>
    match safe_delete rmfail g perm dry base t with
    | Except.ok (b, g2) => sweepFold rmfail perm dry base g2 (addStats s b) rest
    | Except.error e => (s, g, some e)

/-- The target list a one-level sweep builds: base slash entry name
for every name the scandir of the base yields. -/
def sweepTargets (g : FsNode) (perm : Perm) (base : List String) : List (List String) :=
  (iter_entries g perm base).map (fun n => base ++ [n])

/-- Names the iterdir of the volumes root yields. -/
def volumeNames (fs : FsNode) : List String :=
  match lookupRaw fs (resolve fs ["Volumes"]) with
  | some (FsNode.dir cs) => cs.map (fun e => e.1)
  | _ => []

/-- clean_system_caches (cleanmymac_core.py lines 140-158): one level
of children of the home cache root, each through _safe_delete; there is
no try around the loop, so an uncaught delete exception propagates. -/
def clean_system_caches (rmfail : FsNode → List String → FsNode) (fs : FsNode)
    (perm : Perm) (dry : Bool) (home : List String) :
    Except OsErr ((Nat × Nat × Nat) × FsNode) :=
  let cd := home ++ ["Library", "Caches"]
  if existsB fs cd = false then Except.ok ((0, 0, 0), fs) else
  let base := resolve fs cd
  match sweepFold rmfail perm dry base fs (0, 0, 0) (sweepTargets fs perm base) with
  | (s, g, none) => Except.ok (s, g)
  | (_, _, some e) => Except.error e

/-- clean_trash (cleanmymac_core.py lines 160-202).  The loop over the
trash children is wrapped in try/except PermissionError whose handler
runs the osascript Finder fallback and then the sudo find fallback;
those subprocesses touch the filesystem in ways the engine does not
observe, abstracted as the parameter bridgeFx, and the Bool of the
result records whether the handler ran.  iter_entries swallows
PermissionError inside the generator, so for the handler to run some
delete in the loop body would have to raise PermissionError itself. -/
def clean_trash (rmfail : FsNode → List String → FsNode) (bridgeFx : FsNode → FsNode)
    (fs : FsNode) (perm : Perm) (dry : Bool) (home : List String) :
    Except OsErr ((Nat × Nat × Nat) × FsNode × Bool) :=
  let trash := home ++ [".Trash"]
  if existsB fs trash = false then Except.ok ((0, 0, 0), fs, false) else
  let base := resolve fs trash
  match sweepFold rmfail perm dry base fs (0, 0, 0) (sweepTargets fs perm base) with
  | (s, g, none) => Except.ok (s, g, false)
  | (s, g, some OsErr.eacces) => Except.ok (s, bridgeFx g, true)
  | (_, _, some e) => Except.error e

/-- The two conventional trash locations of one mounted volume
(cleanmymac_core.py line 222). -/
def pvtCandidates (uidName v : String) : List (List String) :=
  [["Volumes", v, ".Trashes", uidName], ["Volumes", v, ".Trash"]]

/-- Inner loop of clean_per_volume_trash over the candidate trash
directories of one volume: each existing candidate is enumerated and
swept; a PermissionError from the sweep of one candidate is caught and
only recorded in the flag, any other exception propagates. -/
def pvtFoldCand (rmfail : FsNode → List String → FsNode) (perm : Perm) (dry : Bool) :
    FsNode → (Nat × Nat × Nat) → Bool → List (List String) →
    Except OsErr ((Nat × Nat × Nat) × FsNode × Bool)
  | g, s, had, [] => Except.ok (s, g, had)
  | g, s, had, c :: cs =>
    if existsB g c = false then pvtFoldCand rmfail perm dry g s had cs else
    let base := resolve g c
    match sweepFold rmfail perm dry base g s (sweepTargets g perm base) with
    | (s2, g2, none) => pvtFoldCand rmfail perm dry g2 s2 had cs
    | (s2, g2, some OsErr.eacces) => pvtFoldCand rmfail perm dry g2 s2 true cs
    | (_, _, some e) => Except.error e

/-- Outer loop of clean_per_volume_trash over the volume names; only
children that are directories (following symbolic links) are entered. -/
def pvtFoldVols (rmfail : FsNode → List String → FsNode) (perm : Perm) (dry : Bool)
    (uidName : String) : FsNode → (Nat × Nat × Nat) → Bool → List String →
    Except OsErr ((Nat × Nat × Nat) × FsNode × Bool)
  | g, s, had, [] => Except.ok (s, g, had)
  | g, s, had, v :: vs =>
    if isDirB g ["Volumes", v] = false then pvtFoldVols rmfail perm dry uidName g s had vs else
    match pvtFoldCand rmfail perm dry g s had (pvtCandidates uidName v) with
    | Except.ok (s2, g2, had2) => pvtFoldVols rmfail perm dry uidName g2 s2 had2 vs
    | Except.error e => Except.error e

/-- clean_per_volume_trash (cleanmymac_core.py lines 204-251).  A
missing volumes root returns zero stats; iterdir of the volumes root is
not wrapped in any try, so its PermissionError propagates; after the
volume loop, a recorded permission issue would run the osascript Finder
fallback once for the whole run, abstracted as bridgeFx with the Bool
of the result recording whether it ran.  The uid of the effective
target user only selects a child name, taken here as uidName. -/
def clean_per_volume_trash (rmfail : FsNode → List String → FsNode)
    (bridgeFx : FsNode → FsNode) (fs : FsNode) (perm : Perm) (dry : Bool)
    (uidName : String) : Except OsErr ((Nat × Nat × Nat) × FsNode × Bool) :=
  if isDirB fs ["Volumes"] = false then Except.ok ((0, 0, 0), fs, false) else
  if perm.readOk (resolve fs ["Volumes"]) = false then Except.error OsErr.eacces else
  match pvtFoldVols rmfail perm dry uidName fs (0, 0, 0) false (volumeNames fs) with
  | Except.ok (s, g, had) => Except.ok (s, (if had then bridgeFx g else g), had)
  | Except.error e => Except.error e

/-- File name filter of the log sweep (cleanmymac_core.py line 261). -/
def logMatch (n : String) : Bool :=
  (".log".data.isSuffixOf n.data) || (".txt".data.isSuffixOf n.data)

/-- The targets the log sweep hands to _safe_delete: every file entry
of the full walk of the logs base whose name carries a log or text
extension, in walk order.  The walk is computed against the tree the
sweep starts from; the sweep only unlinks file entries of directories
already listed, so the interleaved deletion of the source does not
change what the walk yields. -/
def logTargets (fs : FsNode) (perm : Perm) (base : List String) : List (List String) :=
  match lookupRaw fs (resolve fs base) with
  | some nd =>
    (walkNode fs perm (resolve fs base) nd).filterMap
      (fun e => if logMatch e.2.1 = true then some (e.1 ++ [e.2.1]) else none)
  | none => []

/-- clean_logs (cleanmymac_core.py lines 253-272): recursive walk of
the home logs root, deleting exactly the entries with a matching name
through _safe_delete; no try around the loop, so an uncaught delete
exception propagates. -/
def clean_logs (rmfail : FsNode → List String → FsNode) (fs : FsNode) (perm : Perm)
    (dry : Bool) (home : List String) : Except OsErr ((Nat × Nat × Nat) × FsNode) :=
  let ld := home ++ ["Library", "Logs"]
  if existsB fs ld = false then Except.ok ((0, 0, 0), fs) else
  let base := resolve fs ld
  match sweepFold rmfail perm dry base fs (0, 0, 0) (logTargets fs perm base) with
  | (s, g, none) => Except.ok (s, g)
  | (_, _, some e) => Except.error e

/-- Home directory selection of CleanMyMac.__init__ (cleanmymac_core.py
lines 56-65): under sudo as root with a non-empty SUDO_USER the home of
the recorded user is looked up in the password database; a KeyError
from the lookup silently falls back to the home of the current process,
as does a missing or empty SUDO_USER or a non-root effective uid. -/
def init_home (sudoUser : Option String) (euid : Nat) (pwDir : String → Option String)
    (processHome : String) : String :=
  match sudoUser with
  | some u =>
    if (!(u == "")) && (euid == 0) then
      match pwDir u with
      | some h => h
      | none => processHome
    else processHome
  | none => processHome

/-- Subtree names the scanners exclude at any depth
(cleanmymac_core.py line 286). -/
def excludedNames : List String := ["Library", "System", ".Trash"]

mutual

/-- Walk of find_large_files: like the full walk but the recursion is
pruned at subdirectories with excluded names; files of the current
directory are collected when their no-follow stat succeeds and their
own size strictly exceeds the threshold. -/
def flNode (fs : FsNode) (perm : Perm) (m : Nat) (p : List String) :
    FsNode → List (List String × Nat)
  | FsNode.dir cs =>
    if perm.readOk p = true then
      cs.filterMap (fun e =>
        if dirFollowB fs e.2 = true then none
        else if perm.statOk (p ++ [e.1]) = true then
          (if nodeSize e.2 > m then some (p ++ [e.1], nodeSize e.2) else none)
        else none)
      ++ flSubs fs perm m p cs
    else []
  | _ => []

def flSubs (fs : FsNode) (perm : Perm) (m : Nat) (p : List String) :
    List (String × FsNode) → List (List String × Nat)
  | [] => []
  | (n, c) :: rest =>
    (if excludedNames.contains n then []
     else
       match c with
       | FsNode.dir cs => flNode fs perm m (p ++ [n]) (FsNode.dir cs)
       | _ => []) ++ flSubs fs perm m p rest

end

/-- Stable insertion of an element that originally came before the
whole list, under a descending-by-size order: it stays in front of
every element it is greater than or equal to.  This reproduces the
result of the stable sort of list.sort(key=size, reverse=True). -/
def insDesc (x : List String × Nat) : List (List String × Nat) → List (List String × Nat)
  | [] => [x]
  | y :: ys => if y.2 ≤ x.2 then x :: y :: ys else y :: insDesc x ys

/-- Stable sort, descending by size, equal-size entries in their
original order: the unique result of any stable sort under this key,
hence of the Timsort call of the source. -/
def sortDesc : List (List String × Nat) → List (List String × Nat)
  | [] => []
  | x :: xs => insDesc x (sortDesc xs)

/-- Default of the limit parameter of find_large_files
(cleanmymac_core.py line 277). -/
def find_large_files_default_limit : Nat := 20

/-- find_large_files (cleanmymac_core.py lines 276-298): pruned walk
from the root, collecting files strictly larger than
min_size_mb * 1024 * 1024 bytes by their no-follow stat, sorted by size
descending (stable), and cut to the limit, a falsy (zero) limit meaning
no cut. -/
def find_large_files (fs : FsNode) (perm : Perm) (root : List String)
    (min_size_mb : Nat) (limit : Nat) : List (List String × Nat) :=
  let m := min_size_mb * 1024 * 1024
  let q := resolve fs root
  let res :=
    match lookupRaw fs q with
    | some nd => flNode fs perm m q nd
    | none => []
  let sorted := sortDesc res
  if limit == 0 then sorted else sorted.take limit

mutual

/-- The size the claim about DirectorySize describes, read literally
from its words: the sum of the own lstat sizes of every regular file
and every symbolic link in the tree, symbolic links treated as leaves.
Kept separate from get_dir_size so the two can be compared. -/
def specTreeSize : FsNode → Nat
  | FsNode.file sz => sz
  | FsNode.symlink _ sz => sz
  | FsNode.dir cs => specTreeSizeKids cs

/-- Sum of specTreeSize over a child list. -/
def specTreeSizeKids : List (String × FsNode) → Nat
  | [] => 0
  | (_, c) :: rest => specTreeSize c + specTreeSizeKids rest

end

mutual

/-- The size get_dir_size actually computes, written as a recursive sum
over the tree: regular files and symbolic links that do not resolve to
a directory count their own size, symbolic links that resolve to a
directory count nothing (the walk lists them as directories and never
enters them), and subdirectories recurse. -/
def reachSize (fs : FsNode) : FsNode → Nat
  | FsNode.file sz => sz
  | FsNode.symlink t sz => if dirFollowB fs (FsNode.symlink t sz) = true then 0 else sz
  | FsNode.dir cs => reachSizeKids fs cs

/-- Sum of reachSize over a child list. -/
def reachSizeKids (fs : FsNode) : List (String × FsNode) → Nat
  | [] => 0
  | (_, c) :: rest => reachSize fs c + reachSizeKids fs rest

end

/-- Contribution of one child to the subdirectory walks: the recursive
size of its children when it is a real directory, nothing otherwise. -/
def subSizeContrib (fs : FsNode) (e : String × FsNode) : Nat :=
  match e.2 with
  | FsNode.dir cs3 => reachSizeKids fs cs3
  | _ => 0

/-- Contribution of one child to the file entries of a walk step under
full permissions: its own size unless it is classified a directory. -/
def fileSizeContrib (fs : FsNode) (e : String × FsNode) : Nat :=
  if dirFollowB fs e.2 = true then 0 else nodeSize e.2

/-- Every node along the path, the endpoint included, is a real
directory of the tree, with no symbolic link involved. -/
def dirChainB : FsNode → List String → Bool
  | FsNode.dir _, [] => true
  | FsNode.dir cs, k :: rest =>
    (match childLookup cs k with
     | some c => dirChainB c rest
     | none => false)
  | _, _ => false

mutual

/-- Names are unique inside every directory of the tree, as they are in
a real filesystem. -/
def nodupB : FsNode → Bool
  | FsNode.file _ => true
  | FsNode.symlink _ _ => true
  | FsNode.dir cs => decide ((cs.map Prod.fst).Nodup) && nodupKids cs

/-- nodupB over a child list. -/
def nodupKids : List (String × FsNode) → Bool
  | [] => true
  | (_, c) :: rest => nodupB c && nodupKids rest

end

/-- Every node on the path, endpoint included, is a real directory. -/
def DirChain (fs : FsNode) (p : List String) : Prop :=
  ∀ q, q <+: p → ∃ cs, lookupRaw fs q = some (FsNode.dir cs)

/-- Final component of a path, the empty string for the root. -/
def lastStr (p : List String) : String :=
  p.getLast?.getD ""

/-- Relation between the tree a sweep started from and the tree it has
reached: every current node was an original node or is a directory that
was one; every original directory is still a directory; every original
non-directory whose name does not match the log filter is untouched. -/
def SweepInv (fs g : FsNode) : Prop :=
  (∀ p x, lookupRaw g p = some x →
    lookupRaw fs p = some x ∨ (isDirN x = true ∧ ∃ cs, lookupRaw fs p = some (FsNode.dir cs)))
  ∧ (∀ p cs, lookupRaw fs p = some (FsNode.dir cs) →
    ∃ cs2, lookupRaw g p = some (FsNode.dir cs2))
  ∧ (∀ p nd, lookupRaw fs p = some nd → isDirN nd = false → logMatch (lastStr p) = false →
    lookupRaw g p = some nd)

/-- What the walk guarantees about each file entry it yields: the
directory path is a raw chain of real directories, the entry is the
node at its path, and it is not a directory. -/
def EntryFact (fs : FsNode) (e : List String × String × FsNode) : Prop :=
  DirChain fs e.1 ∧ lookupRaw fs (e.1 ++ [e.2.1]) = some e.2.2 ∧ isDirN e.2.2 = false

/-- Paths the pruned walk of find_large_files reaches: from the node at
p, descend through readable real directories whose names are not
excluded, ending at a non-directory child entry whose stat succeeds and
whose size strictly exceeds the threshold. -/
inductive FlReach (fs : FsNode) (perm : Perm) (m : Nat) :
    List String → FsNode → List String → String → Nat → Prop where
  | here (p : List String) (cs : List (String × FsNode)) (n : String) (c : FsNode) :
      perm.readOk p = true → (n, c) ∈ cs → dirFollowB fs c = false →
      perm.statOk (p ++ [n]) = true → nodeSize c > m →
      FlReach fs perm m p (FsNode.dir cs) [] n (nodeSize c)
  | deeper (p : List String) (cs : List (String × FsNode)) (d : String) (cd : FsNode)
      (sub : List String) (n : String) (sz : Nat) :
      perm.readOk p = true → (d, cd) ∈ cs → excludedNames.contains d = false →
      FlReach fs perm m (p ++ [d]) cd sub n sz →
      FlReach fs perm m p (FsNode.dir cs) (d :: sub) n sz

/-- Concrete trees and oracles the claim witnesses and counterexamples
are evaluated on. -/
def fsC1 : FsNode :=
  FsNode.dir [("b", FsNode.dir [("s", FsNode.symlink ["o"] 9)]),
    ("o", FsNode.dir [("x", FsNode.file 7)])]

def fsC2 : FsNode :=
  FsNode.dir [("b", FsNode.dir [("d", FsNode.dir [("f", FsNode.file 5)])])]

def permC2 : Perm :=
  { permAll with rmtreeOk := fun p => !(p == ["b", "d"]) }

def fsC3 : FsNode :=
  FsNode.dir [("b", FsNode.dir [("f", FsNode.file 5)])]

def fsC5 : FsNode :=
  FsNode.dir [(".Trash", FsNode.dir [("junk", FsNode.file 4)])]

def permC5 : Perm :=
  { permAll with readOk := fun p => !(p == [".Trash"]) }

def fsC6 : FsNode :=
  FsNode.dir [("p", FsNode.dir [("s", FsNode.symlink ["t"] 7)]), ("t", FsNode.dir [])]

def fsC7 : FsNode :=
  FsNode.dir [("Library", FsNode.dir [("Logs", FsNode.dir [
    ("a.log", FsNode.file 3), ("keep.dat", FsNode.file 5),
    ("sub", FsNode.dir [("c.txt", FsNode.file 2)])])])]

def fsC9 : FsNode :=
  FsNode.dir [("home", FsNode.dir [
    ("Library", FsNode.dir [("big1", FsNode.file 157286400)]),
    ("big2", FsNode.file 209715200), ("small", FsNode.file 10)])]

def fsC9b : FsNode :=
  FsNode.dir [("d", FsNode.dir [("f01", FsNode.file 104857601), ("f02", FsNode.file 104857602), ("f03", FsNode.file 104857603), ("f04", FsNode.file 104857604), ("f05", FsNode.file 104857605), ("f06", FsNode.file 104857606), ("f07", FsNode.file 104857607), ("f08", FsNode.file 104857608), ("f09", FsNode.file 104857609), ("f10", FsNode.file 104857610), ("f11", FsNode.file 104857611), ("f12", FsNode.file 104857612), ("f13", FsNode.file 104857613), ("f14", FsNode.file 104857614), ("f15", FsNode.file 104857615), ("f16", FsNode.file 104857616), ("f17", FsNode.file 104857617), ("f18", FsNode.file 104857618), ("f19", FsNode.file 104857619), ("f20", FsNode.file 104857620), ("f21", FsNode.file 104857621)])]

def fsC10 : FsNode :=
  FsNode.dir [("b", FsNode.dir [("f", FsNode.file 1)])]

def permC10 : Perm :=
  { permAll with unlinkOk := fun p => !(p == ["b", "f"]) }

theorem find?_cons_ne {α : Type} (p : α → Bool) (a : α) (l : List α) (h : p a = false) :
    List.find? p (a :: l) = List.find? p l := by
  simp only [List.find?]
  rw [h]

theorem find?_cons_same {α : Type} (p : α → Bool) (a : α) (l : List α) (h : p a = true) :
    List.find? p (a :: l) = some a := by
  simp only [List.find?]
  rw [h]

theorem childLookup_mem {cs : List (String × FsNode)} {k : String} {c : FsNode}
    (h : childLookup cs k = some c) : (k, c) ∈ cs := by
  unfold childLookup at h
  cases hf : cs.find? (fun e => e.1 == k) with
  | none => rw [hf] at h; simp at h
  | some e =>
    rw [hf] at h
    simp at h
    have hm := List.mem_of_find?_eq_some hf
    have hp := List.find?_some hf
    simp at hp
    cases e with
    | mk n v => simp at hp h; subst hp; subst h; exact hm

theorem childLookup_of_mem_nodup {cs : List (String × FsNode)} {k : String} {c : FsNode}
    (hn : (cs.map Prod.fst).Nodup) (h : (k, c) ∈ cs) : childLookup cs k = some c := by
  induction cs with
  | nil => simp at h
  | cons e rest ih =>
    simp at hn
    rcases List.mem_cons.mp h with h1 | h2
    · subst h1
      unfold childLookup
      rw [find?_cons_same (fun e => e.1 == k) (k, c) rest (by simp)]
      rfl
    · have hne : ((fun e => e.1 == k) e) = false := by
        cases hb : (e.1 == k) with
        | true =>
          have he : e.1 = k := by simpa using hb
          exact absurd (he ▸ h2) (hn.1 c)
        | false => simpa using hb
      unfold childLookup
      rw [find?_cons_ne (fun e => e.1 == k) e rest hne]
      exact ih hn.2 h2

theorem lookupRaw_append (fs : FsNode) (p q : List String) :
    lookupRaw fs (p ++ q) = (lookupRaw fs p).bind (fun nd => lookupRaw nd q) := by
  induction p generalizing fs with
  | nil => simp [lookupRaw]
  | cons k rest ih =>
    cases fs with
    | file sz => simp [lookupRaw]
    | symlink t sz => simp [lookupRaw]
    | dir cs =>
      show lookupRaw (FsNode.dir cs) (k :: (rest ++ q)) =
        (lookupRaw (FsNode.dir cs) (k :: rest)).bind (fun nd => lookupRaw nd q)
      cases hc : childLookup cs k with
      | none => simp only [lookupRaw, hc]; rfl
      | some c => simp only [lookupRaw, hc]; exact ih c

theorem dirChainB_lookup {nd : FsNode} {p : List String} (h : dirChainB nd p = true) :
    ∀ q, q <+: p → ∃ cs, lookupRaw nd q = some (FsNode.dir cs) := by
  induction p generalizing nd with
  | nil =>
    intro q hq
    rw [List.prefix_nil.mp hq]
    cases nd with
    | dir cs => exact ⟨cs, rfl⟩
    | file sz => simp [dirChainB] at h
    | symlink t sz => simp [dirChainB] at h
  | cons k rest ih =>
    intro q hq
    cases nd with
    | file sz => simp [dirChainB] at h
    | symlink t sz => simp [dirChainB] at h
    | dir cs =>
      cases q with
      | nil => exact ⟨cs, rfl⟩
      | cons j q2 =>
        obtain ⟨hj1, hj2⟩ : j = k ∧ q2 <+: rest := by
          rcases hq with ⟨t0, ht0⟩
          simp at ht0
          exact ⟨ht0.1, ⟨t0, ht0.2⟩⟩
        subst hj1
        unfold dirChainB at h
        cases hc : childLookup cs j with
        | none => rw [hc] at h; simp at h
        | some c =>
          rw [hc] at h
          show ∃ cs2, lookupRaw (FsNode.dir cs) (j :: q2) = some (FsNode.dir cs2)
          unfold lookupRaw
          rw [hc]
          exact ih h q2 hj2

theorem dirChain_of_b {fs : FsNode} {p : List String} (h : dirChainB fs p = true) :
    DirChain fs p :=
  fun q hq => dirChainB_lookup h q hq

theorem resolveSeg_chain (fs : FsNode) (onLink : List String → List String)
    (rest : List String) :
    ∀ acc, (∀ q, q <+: rest → q ≠ [] →
      ∃ cs, lookupRaw fs (acc ++ q) = some (FsNode.dir cs)) →
    resolveSeg fs onLink acc rest = acc ++ rest := by
  induction rest with
  | nil => intro acc _; simp [resolveSeg]
  | cons c rs ih =>
    intro acc h
    obtain ⟨cs, hcs⟩ := h [c] ⟨rs, rfl⟩ (by simp)
    unfold resolveSeg
    rw [hcs]
    have := ih (acc ++ [c]) (by
      intro q hq hne
      have hpre : [c] ++ q <+: c :: rs := by
        rcases hq with ⟨t0, ht0⟩
        exact ⟨t0, by simp [ht0]⟩
      obtain ⟨cs2, hcs2⟩ := h ([c] ++ q) hpre (by simp)
      exact ⟨cs2, by simpa using hcs2⟩)
    simpa using this

theorem resolve_of_chain {fs : FsNode} {p : List String} (h : DirChain fs p) :
    resolve fs p = p := by
  have h1 : resolve fs p = resolveSeg fs (resolveAux fs 39) [] p := rfl
  rw [h1]
  have := resolveSeg_chain fs (resolveAux fs 39) p [] (by
    intro q hq _
    obtain ⟨cs, hcs⟩ := h q hq
    exact ⟨cs, by simpa using hcs⟩)
  simpa using this

theorem childLookup_filter_self (cs : List (String × FsNode)) (k : String) :
    childLookup (cs.filter (fun e => !(e.1 == k))) k = none := by
  induction cs with
  | nil => rfl
  | cons e rest ih =>
    cases hb : (e.1 == k) with
    | true =>
      rw [List.filter_cons_of_neg (by simp [hb])]
      exact ih
    | false =>
      rw [List.filter_cons_of_pos (by simp [hb])]
      unfold childLookup
      rw [find?_cons_ne (fun e => e.1 == k) e _ hb]
      exact ih

theorem childLookup_filter_ne (cs : List (String × FsNode)) (j k : String)
    (h : (j == k) = false) :
    childLookup (cs.filter (fun e => !(e.1 == k))) j = childLookup cs j := by
  induction cs with
  | nil => rfl
  | cons e rest ih =>
    cases hb : (e.1 == k) with
    | true =>
      rw [List.filter_cons_of_neg (by simp [hb])]
      have hej : (e.1 == j) = false := by
        have h1 : e.1 = k := by simpa using hb
        have h2 : ¬(j = k) := by simpa using h
        simp [h1]
        intro hkj
        exact h2 hkj.symm
      rw [ih]
      unfold childLookup
      rw [find?_cons_ne (fun e => e.1 == j) e rest hej]
    | false =>
      rw [List.filter_cons_of_pos (by simp [hb])]
      cases hej : (e.1 == j) with
      | true =>
        unfold childLookup
        rw [find?_cons_same (fun e => e.1 == j) e _ hej,
          find?_cons_same (fun e => e.1 == j) e rest hej]
      | false =>
        unfold childLookup
        rw [find?_cons_ne (fun e => e.1 == j) e _ hej,
          find?_cons_ne (fun e => e.1 == j) e rest hej]
        exact ih

theorem childLookup_map_self (cs : List (String × FsNode)) (k : String)
    (h0 : FsNode → FsNode) :
    childLookup (cs.map (fun e => if e.1 == k then (e.1, h0 e.2) else e)) k
      = (childLookup cs k).map h0 := by
  induction cs with
  | nil => rfl
  | cons e rest ih =>
    cases hb : (e.1 == k) with
    | true =>
      have hfe : (if e.1 == k then (e.1, h0 e.2) else e) = (e.1, h0 e.2) := by
        simp [hb]
      rw [List.map_cons, hfe]
      unfold childLookup
      rw [find?_cons_same (fun e => e.1 == k) (e.1, h0 e.2) _ hb,
        find?_cons_same (fun e => e.1 == k) e rest hb]
      rfl
    | false =>
      have hfe : (if e.1 == k then (e.1, h0 e.2) else e) = e := by
        simp [hb]
      rw [List.map_cons, hfe]
      unfold childLookup
      rw [find?_cons_ne (fun e => e.1 == k) e _ hb,
        find?_cons_ne (fun e => e.1 == k) e rest hb]
      exact ih

theorem childLookup_map_ne (cs : List (String × FsNode)) (j k : String)
    (h0 : FsNode → FsNode) (h : (j == k) = false) :
    childLookup (cs.map (fun e => if e.1 == k then (e.1, h0 e.2) else e)) j
      = childLookup cs j := by
  induction cs with
  | nil => rfl
  | cons e rest ih =>
    cases hb : (e.1 == k) with
    | true =>
      have hfe : (if e.1 == k then (e.1, h0 e.2) else e) = (e.1, h0 e.2) := by
        simp [hb]
      rw [List.map_cons, hfe]
      have hej : (e.1 == j) = false := by
        have h1 : e.1 = k := by simpa using hb
        have h2 : ¬(j = k) := by simpa using h
        simp [h1]
        intro hkj
        exact h2 hkj.symm
      unfold childLookup
      rw [find?_cons_ne (fun e => e.1 == j) (e.1, h0 e.2) _ hej,
        find?_cons_ne (fun e => e.1 == j) e rest hej]
      exact ih
    | false =>
      have hfe : (if e.1 == k then (e.1, h0 e.2) else e) = e := by
        simp [hb]
      rw [List.map_cons, hfe]
      cases hej : (e.1 == j) with
      | true =>
        unfold childLookup
        rw [find?_cons_same (fun e => e.1 == j) e _ hej,
          find?_cons_same (fun e => e.1 == j) e rest hej]
      | false =>
        unfold childLookup
        rw [find?_cons_ne (fun e => e.1 == j) e _ hej,
          find?_cons_ne (fun e => e.1 == j) e rest hej]
        exact ih

/-- Effect of one entry removal on every lookup: a lookup is unchanged,
or the looked-up path extends the removed one and is gone, or it is a
proper ancestor of the removed one and stays a directory (with the
child list possibly shrunk). -/
theorem remove_lookup (r : List String) : ∀ (g : FsNode) (p : List String),
    lookupRaw (removeRaw g r) p = lookupRaw g p
  ∨ (r <+: p ∧ lookupRaw (removeRaw g r) p = none)
  ∨ (p <+: r ∧ p ≠ r ∧ ∃ cs cs2, lookupRaw g p = some (FsNode.dir cs) ∧
      lookupRaw (removeRaw g r) p = some (FsNode.dir cs2)) := by
  induction r with
  | nil => intro g p; left; cases g <;> rfl
  | cons k rest ih =>
    intro g p
    cases g with
    | file sz => left; cases rest <;> rfl
    | symlink t sz => left; cases rest <;> rfl
    | dir cs =>
      cases rest with
      | nil =>
        cases p with
        | nil =>
          right; right
          exact ⟨List.nil_prefix, by simp, cs, _, rfl, rfl⟩
        | cons j p2 =>
          cases hb : (j == k) with
          | true =>
            have hjk : j = k := by simpa using hb
            subst hjk
            right; left
            refine ⟨⟨p2, rfl⟩, ?_⟩
            show lookupRaw (FsNode.dir (cs.filter (fun e => !(e.1 == j)))) (j :: p2) = none
            simp only [lookupRaw, childLookup_filter_self]
          | false =>
            left
            show lookupRaw (FsNode.dir (cs.filter (fun e => !(e.1 == k)))) (j :: p2)
              = lookupRaw (FsNode.dir cs) (j :: p2)
            simp only [lookupRaw, childLookup_filter_ne cs j k hb]
      | cons r2 rs =>
        cases p with
        | nil =>
          right; right
          exact ⟨List.nil_prefix, by simp, cs, _, rfl, rfl⟩
        | cons j p2 =>
          cases hb : (j == k) with
          | false =>
            left
            show lookupRaw (FsNode.dir (cs.map
                (fun e => if e.1 == k then (e.1, removeRaw e.2 (r2 :: rs)) else e))) (j :: p2)
              = lookupRaw (FsNode.dir cs) (j :: p2)
            simp only [lookupRaw,
              childLookup_map_ne cs j k (fun c => removeRaw c (r2 :: rs)) hb]
          | true =>
            have hjk : j = k := by simpa using hb
            subst hjk
            have hmap :
                lookupRaw (removeRaw (FsNode.dir cs) (j :: r2 :: rs)) (j :: p2)
                = match (childLookup cs j).map (fun c => removeRaw c (r2 :: rs)) with
                  | some c => lookupRaw c p2
                  | none => none := by
              show lookupRaw (FsNode.dir (cs.map
                  (fun e => if e.1 == j then (e.1, removeRaw e.2 (r2 :: rs)) else e))) (j :: p2) = _
              simp only [lookupRaw,
                childLookup_map_self cs j (fun c => removeRaw c (r2 :: rs))]
            cases hc : childLookup cs j with
            | none =>
              left
              rw [hmap, hc]
              show none = lookupRaw (FsNode.dir cs) (j :: p2)
              simp only [lookupRaw, hc]
            | some c =>
              have hold : lookupRaw (FsNode.dir cs) (j :: p2) = lookupRaw c p2 := by
                simp only [lookupRaw, hc]
              rw [hmap, hc]
              rcases ih c p2 with h1 | h2 | h3
              · left
                rw [hold]
                exact h1
              · right; left
                refine ⟨?_, h2.2⟩
                rcases h2.1 with ⟨t0, ht0⟩
                exact ⟨t0, by simp [ht0]⟩
              · right; right
                obtain ⟨hpre, hne, cs1, cs2, hl1, hl2⟩ := h3
                refine ⟨?_, ?_, cs1, cs2, ?_, hl2⟩
                · rcases hpre with ⟨t0, ht0⟩
                  exact ⟨t0, by simp [ht0]⟩
                · intro heq
                  exact hne (by simpa using heq)
                · rw [hold]; exact hl1

theorem lookup_prefix_dir {fs : FsNode} {p q : List String} {nd : FsNode}
    (h : lookupRaw fs p = some nd) (hq : q <+: p) (hne : q ≠ p) :
    ∃ cs, lookupRaw fs q = some (FsNode.dir cs) := by
  rcases hq with ⟨t, ht⟩
  cases t with
  | nil => exact absurd (by simpa using ht) hne
  | cons c t2 =>
    subst ht
    rw [lookupRaw_append] at h
    cases hm : lookupRaw fs q with
    | none => rw [hm] at h; simp at h
    | some m =>
      rw [hm] at h
      simp at h
      cases m with
      | dir cs => exact ⟨cs, rfl⟩
      | file sz => simp [lookupRaw] at h
      | symlink t sz => simp [lookupRaw] at h

theorem nodupKids_mem {cs : List (String × FsNode)} {k : String} {c : FsNode}
    (hn : nodupKids cs = true) (h : (k, c) ∈ cs) : nodupB c = true := by
  induction cs with
  | nil => simp at h
  | cons e rest ih =>
    unfold nodupKids at hn
    simp only [Bool.and_eq_true] at hn
    rcases List.mem_cons.mp h with h1 | h2
    · cases h1
      exact hn.1
    · exact ih hn.2 h2

theorem nodupB_dir {cs : List (String × FsNode)}
    (hn : nodupB (FsNode.dir cs) = true) :
    (cs.map Prod.fst).Nodup ∧ nodupKids cs = true := by
  unfold nodupB at hn
  simp only [Bool.and_eq_true, decide_eq_true_eq] at hn
  exact hn

theorem lookupRaw_nil (fs : FsNode) : lookupRaw fs [] = some fs := by
  cases fs <;> rfl

theorem nodup_lookup {fs : FsNode} {p : List String} {nd : FsNode}
    (hn : nodupB fs = true) (h : lookupRaw fs p = some nd) : nodupB nd = true := by
  induction p generalizing fs with
  | nil =>
    rw [lookupRaw_nil] at h
    injection h with h2
    rwa [← h2]
  | cons k rest ih =>
    cases fs with
    | file sz => simp [lookupRaw] at h
    | symlink t sz => simp [lookupRaw] at h
    | dir cs =>
      have hu : lookupRaw (FsNode.dir cs) (k :: rest) =
          match childLookup cs k with
          | some c => lookupRaw c rest
          | none => none := rfl
      rw [hu] at h
      cases hc : childLookup cs k with
      | none => rw [hc] at h; simp at h
      | some c =>
        rw [hc] at h
        exact ih (nodupKids_mem (nodupB_dir hn).2 (childLookup_mem hc)) h

theorem remove_keeps_dir {g : FsNode} {r p : List String} {cs : List (String × FsNode)}
    (h : lookupRaw g p = some (FsNode.dir cs)) (hnp : ¬ (r <+: p)) :
    ∃ cs2, lookupRaw (removeRaw g r) p = some (FsNode.dir cs2) := by
  rcases remove_lookup r g p with h1 | h2 | h3
  · exact ⟨cs, by rw [h1, h]⟩
  · exact absurd h2.1 hnp
  · obtain ⟨_, _, _, cs2, _, hl2⟩ := h3
    exact ⟨cs2, hl2⟩

theorem remove_keeps_leaf {g : FsNode} {r p : List String} {nd : FsNode}
    (h : lookupRaw g p = some nd) (hd : isDirN nd = false) (hnp : ¬ (r <+: p)) :
    lookupRaw (removeRaw g r) p = some nd := by
  rcases remove_lookup r g p with h1 | h2 | h3
  · rw [h1, h]
  · exact absurd h2.1 hnp
  · obtain ⟨_, _, cs1, _, hl1, _⟩ := h3
    rw [h] at hl1
    cases hl1
    simp [isDirN] at hd

theorem remove_lookup_back {g : FsNode} {r p : List String} {x : FsNode}
    (h : lookupRaw (removeRaw g r) p = some x) :
    lookupRaw g p = some x
    ∨ (isDirN x = true ∧ ∃ cs, lookupRaw g p = some (FsNode.dir cs)) := by
  rcases remove_lookup r g p with h1 | h2 | h3
  · left; rw [← h1, h]
  · rw [h2.2] at h; simp at h
  · obtain ⟨_, _, cs1, cs2, hl1, hl2⟩ := h3
    rw [hl2] at h
    cases h
    exact Or.inr ⟨rfl, cs1, hl1⟩

theorem dirFollow_false_not_dir {fs : FsNode} {c : FsNode}
    (h : dirFollowB fs c = false) : isDirN c = false := by
  cases c with
  | dir cs => simp [dirFollowB] at h
  | file sz => rfl
  | symlink t sz => rfl

theorem dirChain_snoc {fs : FsNode} {p : List String} {m : String}
    {cs : List (String × FsNode)} (hch : DirChain fs p)
    (hm : lookupRaw fs (p ++ [m]) = some (FsNode.dir cs)) :
    DirChain fs (p ++ [m]) := by
  intro q hq
  rcases List.prefix_concat_iff.mp hq with h1 | h2
  · subst h1; exact ⟨cs, hm⟩
  · exact hch q h2

theorem lookup_child_of_mem {fs : FsNode} {p : List String}
    {cs : List (String × FsNode)} {m : String} {cm : FsNode}
    (hn : nodupB fs = true) (hp : lookupRaw fs p = some (FsNode.dir cs))
    (hmem : (m, cm) ∈ cs) : lookupRaw fs (p ++ [m]) = some cm := by
  have hnames : (cs.map Prod.fst).Nodup := (nodupB_dir (nodup_lookup hn hp)).1
  have hcl : childLookup cs m = some cm := childLookup_of_mem_nodup hnames hmem
  rw [lookupRaw_append, hp]
  show lookupRaw (FsNode.dir cs) [m] = some cm
  have hu : lookupRaw (FsNode.dir cs) [m] =
      match childLookup cs m with
      | some c => lookupRaw c []
      | none => none := rfl
  rw [hu, hcl]
  exact lookupRaw_nil cm

mutual

theorem walkNode_facts (fs : FsNode) (perm : Perm) (hn : nodupB fs = true)
    (p : List String) (nd : FsNode) (hp : lookupRaw fs p = some nd)
    (hch : DirChain fs p) :
    ∀ e ∈ walkNode fs perm p nd, EntryFact fs e := by
  intro e he
  cases nd with
  | file sz => simp [walkNode] at he
  | symlink t sz => simp [walkNode] at he
  | dir cs =>
    rw [walkNode] at he
    by_cases hr : perm.readOk p = true
    · rw [if_pos hr] at he
      rcases List.mem_append.mp he with hf | hs
      · unfold walkFilesHere at hf
        rcases List.mem_filterMap.mp hf with ⟨a, ha, hfa⟩
        by_cases hd : dirFollowB fs a.2 = true
        · rw [if_pos hd] at hfa; simp at hfa
        · rw [if_neg hd] at hfa
          injection hfa with hfa
          subst hfa
          refine ⟨hch, ?_, ?_⟩
          · exact lookup_child_of_mem hn hp (by simpa using ha)
          · exact dirFollow_false_not_dir (by simpa using hd)
      · exact walkSubs_facts fs perm hn p cs hch
          (fun m cm hmem => lookup_child_of_mem hn hp hmem) e hs
    · rw [if_neg hr] at he
      simp at he

theorem walkSubs_facts (fs : FsNode) (perm : Perm) (hn : nodupB fs = true)
    (p : List String) (cs2 : List (String × FsNode)) (hch : DirChain fs p)
    (hmem : ∀ m cm, (m, cm) ∈ cs2 → lookupRaw fs (p ++ [m]) = some cm) :
    ∀ e ∈ walkSubs fs perm p cs2, EntryFact fs e := by
  intro e he
  cases cs2 with
  | nil => simp [walkSubs] at he
  | cons hd rest =>
    obtain ⟨m, cm⟩ := hd
    cases cm with
    | file sz =>
      have he2 : e ∈ walkSubs fs perm p rest := he
      exact walkSubs_facts fs perm hn p rest hch
        (fun m2 cm2 h2 => hmem m2 cm2 (List.mem_cons_of_mem _ h2)) e he2
    | symlink t sz =>
      have he2 : e ∈ walkSubs fs perm p rest := he
      exact walkSubs_facts fs perm hn p rest hch
        (fun m2 cm2 h2 => hmem m2 cm2 (List.mem_cons_of_mem _ h2)) e he2
    | dir cs3 =>
      have he2 : e ∈ walkNode fs perm (p ++ [m]) (FsNode.dir cs3)
          ++ walkSubs fs perm p rest := he
      rcases List.mem_append.mp he2 with hh | ht
      · have hp2 : lookupRaw fs (p ++ [m]) = some (FsNode.dir cs3) :=
          hmem m (FsNode.dir cs3) (List.mem_cons_self _ _)
        exact walkNode_facts fs perm hn (p ++ [m]) (FsNode.dir cs3) hp2
          (dirChain_snoc hch hp2) e hh
      · exact walkSubs_facts fs perm hn p rest hch
          (fun m2 cm2 h2 => hmem m2 cm2 (List.mem_cons_of_mem _ h2)) e ht

end

theorem if_bool_true {α : Type} {a b : α} : (if (true : Bool) = true then a else b) = a :=
  if_pos rfl

theorem if_bool_false {α : Type} {a b : α} : (if (false : Bool) = true then a else b) = b :=
  if_neg (by simp)

theorem sd_not_within {rmfail : FsNode → List String → FsNode} {fs : FsNode} {perm : Perm}
    {dry : Bool} {base target : List String} (h : is_within fs base target = false) :
    safe_delete rmfail fs perm dry base target = Except.ok ((0, 0, 0), fs) := by
  unfold safe_delete
  rw [if_pos h]

theorem sd_enoent {rmfail : FsNode → List String → FsNode} {fs : FsNode} {perm : Perm}
    {dry : Bool} {base target : List String} (hw : is_within fs base target = true)
    (hl : lstatE fs perm target = Except.error OsErr.enoent) :
    safe_delete rmfail fs perm dry base target = Except.ok ((0, 0, 0), fs) := by
  unfold safe_delete
  rw [if_neg (by simp [hw]), hl]

theorem sd_eacces {rmfail : FsNode → List String → FsNode} {fs : FsNode} {perm : Perm}
    {dry : Bool} {base target : List String} (hw : is_within fs base target = true)
    (hl : lstatE fs perm target = Except.error OsErr.eacces) :
    safe_delete rmfail fs perm dry base target = Except.ok ((0, 0, 0), fs) := by
  unfold safe_delete
  rw [if_neg (by simp [hw]), hl]

theorem sd_other {rmfail : FsNode → List String → FsNode} {fs : FsNode} {perm : Perm}
    {dry : Bool} {base target : List String} (hw : is_within fs base target = true)
    (hl : lstatE fs perm target = Except.error OsErr.other) :
    safe_delete rmfail fs perm dry base target = Except.error OsErr.other := by
  unfold safe_delete
  rw [if_neg (by simp [hw]), hl]

theorem sd_dry_nondir {rmfail : FsNode → List String → FsNode} {fs : FsNode} {perm : Perm}
    {base target : List String} {nd : FsNode} (hw : is_within fs base target = true)
    (hl : lstatE fs perm target = Except.ok nd) (hd : isDirN nd = false) :
    safe_delete rmfail fs perm true base target
      = Except.ok ((nodeSize nd, 1, 0), fs) := by
  unfold safe_delete
  rw [if_neg (by simp [hw]), hl]
  dsimp only
  rw [if_neg (by simp [hd]), if_bool_true]

theorem sd_real_nondir_ok {rmfail : FsNode → List String → FsNode} {fs : FsNode}
    {perm : Perm} {base target : List String} {nd : FsNode}
    (hw : is_within fs base target = true) (hl : lstatE fs perm target = Except.ok nd)
    (hd : isDirN nd = false) (hu : perm.unlinkOk target = true) :
    safe_delete rmfail fs perm false base target
      = Except.ok ((nodeSize nd, 1, 0), removeAt fs target) := by
  unfold safe_delete
  rw [if_neg (by simp [hw]), hl]
  dsimp only
  rw [if_neg (by simp [hd]), if_bool_false, if_pos hu]

theorem sd_real_nondir_fail {rmfail : FsNode → List String → FsNode} {fs : FsNode}
    {perm : Perm} {base target : List String} {nd : FsNode}
    (hw : is_within fs base target = true) (hl : lstatE fs perm target = Except.ok nd)
    (hd : isDirN nd = false) (hu : perm.unlinkOk target = false) :
    safe_delete rmfail fs perm false base target = Except.ok ((0, 0, 0), fs) := by
  unfold safe_delete
  rw [if_neg (by simp [hw]), hl]
  dsimp only
  rw [if_neg (by simp [hd]), if_bool_false, if_neg (by simp [hu])]

theorem sd_dry_dir {rmfail : FsNode → List String → FsNode} {fs : FsNode} {perm : Perm}
    {base target : List String} {nd : FsNode} (hw : is_within fs base target = true)
    (hl : lstatE fs perm target = Except.ok nd) (hd : isDirN nd = true) :
    safe_delete rmfail fs perm true base target
      = Except.ok ((get_dir_size fs perm target, 0, 1), fs) := by
  unfold safe_delete
  rw [if_neg (by simp [hw]), hl]
  dsimp only
  rw [if_pos hd, if_bool_true]

theorem sd_real_dir_ok {rmfail : FsNode → List String → FsNode} {fs : FsNode}
    {perm : Perm} {base target : List String} {nd : FsNode}
    (hw : is_within fs base target = true) (hl : lstatE fs perm target = Except.ok nd)
    (hd : isDirN nd = true) (hr : perm.rmtreeOk target = true) :
    safe_delete rmfail fs perm false base target
      = Except.ok ((get_dir_size fs perm target, 0, 1), removeAt fs target) := by
  unfold safe_delete
  rw [if_neg (by simp [hw]), hl]
  dsimp only
  rw [if_pos hd, if_bool_false, if_pos hr]

theorem sd_real_dir_fail {rmfail : FsNode → List String → FsNode} {fs : FsNode}
    {perm : Perm} {base target : List String} {nd : FsNode}
    (hw : is_within fs base target = true) (hl : lstatE fs perm target = Except.ok nd)
    (hd : isDirN nd = true) (hr : perm.rmtreeOk target = false) :
    safe_delete rmfail fs perm false base target
      = Except.ok ((0, 0, 0), rmfail fs target) := by
  unfold safe_delete
  rw [if_neg (by simp [hw]), hl]
  dsimp only
  rw [if_pos hd, if_bool_false, if_neg (by simp [hr])]

theorem sd_error_other {rmfail : FsNode → List String → FsNode} {fs : FsNode}
    {perm : Perm} {dry : Bool} {base target : List String} {e : OsErr}
    (h : safe_delete rmfail fs perm dry base target = Except.error e) :
    e = OsErr.other ∧ lstatE fs perm target = Except.error OsErr.other := by
  by_cases hw : is_within fs base target = false
  · rw [sd_not_within hw] at h; exact absurd h (by simp)
  · have hw2 : is_within fs base target = true := by
      cases hb : is_within fs base target
      · exact absurd hb hw
      · rfl
    cases hl : lstatE fs perm target with
    | error e2 =>
      cases e2 with
      | enoent => rw [sd_enoent hw2 hl] at h; exact absurd h (by simp)
      | eacces => rw [sd_eacces hw2 hl] at h; exact absurd h (by simp)
      | other =>
        rw [sd_other hw2 hl] at h
        injection h with h2
        exact ⟨h2.symm, rfl⟩
    | ok nd =>
      cases hb : isDirN nd with
      | true =>
        cases dry with
        | true => rw [sd_dry_dir hw2 hl hb] at h; exact absurd h (by simp)
        | false =>
          cases hr : perm.rmtreeOk target with
          | true => rw [sd_real_dir_ok hw2 hl hb hr] at h; exact absurd h (by simp)
          | false => rw [sd_real_dir_fail hw2 hl hb hr] at h; exact absurd h (by simp)
      | false =>
        cases dry with
        | true => rw [sd_dry_nondir hw2 hl hb] at h; exact absurd h (by simp)
        | false =>
          cases hr : perm.unlinkOk target with
          | true => rw [sd_real_nondir_ok hw2 hl hb hr] at h; exact absurd h (by simp)
          | false => rw [sd_real_nondir_fail hw2 hl hb hr] at h; exact absurd h (by simp)

theorem sd_dry_keeps {rmfail : FsNode → List String → FsNode} {fs : FsNode}
    {perm : Perm} {base target : List String} {r : (Nat × Nat × Nat) × FsNode}
    (h : safe_delete rmfail fs perm true base target = Except.ok r) : r.2 = fs := by
  by_cases hw : is_within fs base target = false
  · rw [sd_not_within hw] at h
    injection h with h2
    rw [← h2]
  · have hw2 : is_within fs base target = true := by
      cases hb : is_within fs base target
      · exact absurd hb hw
      · rfl
    cases hl : lstatE fs perm target with
    | error e2 =>
      cases e2 with
      | enoent => rw [sd_enoent hw2 hl] at h; injection h with h2; rw [← h2]
      | eacces => rw [sd_eacces hw2 hl] at h; injection h with h2; rw [← h2]
      | other => rw [sd_other hw2 hl] at h; exact absurd h (by simp)
    | ok nd =>
      cases hb : isDirN nd with
      | true => rw [sd_dry_dir hw2 hl hb] at h; injection h with h2; rw [← h2]
      | false => rw [sd_dry_nondir hw2 hl hb] at h; injection h with h2; rw [← h2]

theorem sweepFold_err {rmfail : FsNode → List String → FsNode} {perm : Perm}
    {dry : Bool} {base : List String} :
    ∀ (ts : List (List String)) (g : FsNode) (s s2 : Nat × Nat × Nat) (g2 : FsNode)
    (e : OsErr), sweepFold rmfail perm dry base g s ts = (s2, g2, some e) →
    e = OsErr.other := by
  intro ts
  induction ts with
  | nil =>
    intro g s s2 g2 e h
    unfold sweepFold at h
    injection h with h1 h2
    injection h2 with h3 h4
    exact absurd h4 (by simp)
  | cons t rest ih =>
    intro g s s2 g2 e h
    unfold sweepFold at h
    cases hd : safe_delete rmfail g perm dry base t with
    | ok pr =>
      rw [hd] at h
      exact ih pr.2 (addStats s pr.1) s2 g2 e (by
        cases pr with
        | mk b g3 => exact h)
    | error e2 =>
      rw [hd] at h
      injection h with h1 h2
      injection h2 with h3 h4
      injection h4 with h5
      rw [← h5]
      exact (sd_error_other hd).1

theorem sweepFold_dry_keeps {rmfail : FsNode → List String → FsNode} {perm : Perm}
    {base : List String} :
    ∀ (ts : List (List String)) (g : FsNode) (s s2 : Nat × Nat × Nat) (g2 : FsNode)
    (e : Option OsErr), sweepFold rmfail perm true base g s ts = (s2, g2, e) →
    g2 = g := by
  intro ts
  induction ts with
  | nil =>
    intro g s s2 g2 e h
    unfold sweepFold at h
    injection h with h1 h2
    injection h2 with h3 h4
    exact h3.symm
  | cons t rest ih =>
    intro g s s2 g2 e h
    unfold sweepFold at h
    cases hd : safe_delete rmfail g perm true base t with
    | ok pr =>
      rw [hd] at h
      have hg3 : pr.2 = g := sd_dry_keeps hd
      have := ih pr.2 (addStats s pr.1) s2 g2 e (by
        cases pr with
        | mk b g3 => exact h)
      rw [this, hg3]
    | error e2 =>
      rw [hd] at h
      injection h with h1 h2
      injection h2 with h3 h4
      exact h3.symm

theorem bool_not_false {b : Bool} (h : ¬ b = false) : b = true := by
  cases b
  · exact absurd rfl h
  · rfl

theorem lookup_det {fs : FsNode} {p : List String} {a b : FsNode}
    (h1 : lookupRaw fs p = some a) (h2 : lookupRaw fs p = some b) : a = b := by
  rw [h1] at h2
  injection h2

theorem lastStr_concat (d : List String) (n : String) : lastStr (d ++ [n]) = n := by
  unfold lastStr
  rw [List.getLast?_concat]
  rfl

theorem lookup_concat {g : FsNode} {d : List String} {n : String}
    {csg : List (String × FsNode)} (hdir : lookupRaw g d = some (FsNode.dir csg)) :
    lookupRaw g (d ++ [n]) = childLookup csg n := by
  rw [lookupRaw_append, hdir]
  show lookupRaw (FsNode.dir csg) [n] = childLookup csg n
  have hu : lookupRaw (FsNode.dir csg) [n] =
      match childLookup csg n with
      | some c => lookupRaw c []
      | none => none := rfl
  rw [hu]
  cases hc : childLookup csg n with
  | none => rfl
  | some c => exact lookupRaw_nil c

theorem lstatE_concat {g : FsNode} {perm : Perm} {d : List String} {n : String}
    {csg : List (String × FsNode)} (hst : perm.statOk (d ++ [n]) = true)
    (hres : resolve g d = d) (hdir : lookupRaw g d = some (FsNode.dir csg)) :
    lstatE g perm (d ++ [n]) =
      match childLookup csg n with
      | some c => Except.ok c
      | none => Except.error OsErr.enoent := by
  unfold lstatE
  rw [if_neg (by simp [hst]), List.getLast?_concat]
  dsimp only
  rw [List.dropLast_concat, hres, hdir]

theorem sweepInv_refl (fs : FsNode) : SweepInv fs fs :=
  ⟨fun _ _ hx => Or.inl hx, fun _ cs h => ⟨cs, h⟩, fun _ _ h _ _ => h⟩

/-- One matching walk entry through _safe_delete never raises, and the
sweep invariant survives whatever the delete did. -/
theorem sweep_step (rmfail : FsNode → List String → FsNode) (fs g : FsNode)
    (perm : Perm) (dry : Bool) (base : List String) (d : List String) (n : String)
    (c : FsNode) (hfact : EntryFact fs (d, n, c)) (hm : logMatch n = true)
    (hinv : SweepInv fs g) :
    ∃ r, safe_delete rmfail g perm dry base (d ++ [n]) = Except.ok r
      ∧ SweepInv fs r.2 := by
  obtain ⟨hch, hc, hnd⟩ := hfact
  by_cases hwf : is_within g base (d ++ [n]) = false
  · exact ⟨((0, 0, 0), g), sd_not_within hwf, hinv⟩
  have hw2 : is_within g base (d ++ [n]) = true := bool_not_false hwf
  have hchg : DirChain g d := by
    intro q hq
    obtain ⟨cs0, hcs0⟩ := hch q hq
    exact hinv.2.1 q cs0 hcs0
  have hresg : resolve g d = d := resolve_of_chain hchg
  obtain ⟨csg, hcsg⟩ := hchg d (List.prefix_refl d)
  cases hst : perm.statOk (d ++ [n]) with
  | false =>
    have hl : lstatE g perm (d ++ [n]) = Except.error OsErr.eacces := by
      unfold lstatE
      rw [if_pos (by simp [hst])]
    exact ⟨((0, 0, 0), g), sd_eacces hw2 hl, hinv⟩
  | true =>
    have hlst := lstatE_concat (g := g) hst hresg hcsg
    cases hcl : childLookup csg n with
    | none =>
      have hl : lstatE g perm (d ++ [n]) = Except.error OsErr.enoent := by
        rw [hlst, hcl]
      exact ⟨((0, 0, 0), g), sd_enoent hw2 hl, hinv⟩
    | some c2 =>
      have hl : lstatE g perm (d ++ [n]) = Except.ok c2 := by
        rw [hlst, hcl]
      have hg_t : lookupRaw g (d ++ [n]) = some c2 := by
        rw [lookup_concat hcsg, hcl]
      have hc2nd : isDirN c2 = false := by
        rcases hinv.1 (d ++ [n]) c2 hg_t with h1 | h2
        · rw [lookup_det h1 hc]
          exact hnd
        · obtain ⟨_, cs0, hfs0⟩ := h2
          rw [lookup_det hc hfs0] at hnd
          simp [isDirN] at hnd
      cases dry with
      | true => exact ⟨((nodeSize c2, 1, 0), g), sd_dry_nondir hw2 hl hc2nd, hinv⟩
      | false =>
        cases hu : perm.unlinkOk (d ++ [n]) with
        | false => exact ⟨((0, 0, 0), g), sd_real_nondir_fail hw2 hl hc2nd hu, hinv⟩
        | true =>
          refine ⟨((nodeSize c2, 1, 0), removeAt g (d ++ [n])),
            sd_real_nondir_ok hw2 hl hc2nd hu, ?_⟩
          have hrm : removeAt g (d ++ [n]) = removeRaw g (d ++ [n]) := by
            unfold removeAt
            rw [List.getLast?_concat]
            dsimp only
            rw [List.dropLast_concat, hresg]
          show SweepInv fs (((nodeSize c2, 1, 0), removeAt g (d ++ [n])).2)
      -- keep the projection explicit so the rewrite lands on it
          rw [hrm]
          refine ⟨?_, ?_, ?_⟩
          · intro p x hx
            rcases remove_lookup_back hx with h1 | h2
            · exact hinv.1 p x h1
            · obtain ⟨hxdir, cs1, hg1⟩ := h2
              rcases hinv.1 p (FsNode.dir cs1) hg1 with h3 | h4
              · exact Or.inr ⟨hxdir, cs1, h3⟩
              · obtain ⟨_, cs2, h5⟩ := h4
                exact Or.inr ⟨hxdir, cs2, h5⟩
          · intro p cs0 hfs0
            obtain ⟨cs1, hg1⟩ := hinv.2.1 p cs0 hfs0
            apply remove_keeps_dir hg1
            intro hpre
            by_cases hpe : d ++ [n] = p
            · rw [← hpe] at hfs0
              rw [lookup_det hc hfs0] at hnd
              simp [isDirN] at hnd
            · obtain ⟨cs3, h6⟩ := lookup_prefix_dir hfs0 hpre hpe
              rw [lookup_det hc h6] at hnd
              simp [isDirN] at hnd
          · intro p nd0 hfs0 hnd0 hnm
            have hg1 := hinv.2.2 p nd0 hfs0 hnd0 hnm
            apply remove_keeps_leaf hg1 hnd0
            intro hpre
            by_cases hpe : d ++ [n] = p
            · rw [← hpe, lastStr_concat] at hnm
              rw [hm] at hnm
              exact absurd hnm (by simp)
            · obtain ⟨cs3, h6⟩ := lookup_prefix_dir hfs0 hpre hpe
              rw [lookup_det hc h6] at hnd
              simp [isDirN] at hnd

theorem sweepFold_inv (rmfail : FsNode → List String → FsNode) (perm : Perm)
    (dry : Bool) (base : List String) (fs : FsNode) :
    ∀ (ts : List (List String)) (g : FsNode) (s : Nat × Nat × Nat),
    (∀ t ∈ ts, ∃ d n c, t = d ++ [n] ∧ EntryFact fs (d, n, c) ∧ logMatch n = true) →
    SweepInv fs g →
    ∃ s2 g2, sweepFold rmfail perm dry base g s ts = (s2, g2, none)
      ∧ SweepInv fs g2 := by
  intro ts
  induction ts with
  | nil =>
    intro g s _ hinv
    exact ⟨s, g, rfl, hinv⟩
  | cons t rest ih =>
    intro g s hts hinv
    obtain ⟨d, n, c, ht, hfact, hm⟩ := hts t (List.mem_cons_self _ _)
    subst ht
    obtain ⟨r, hr, hinv2⟩ := sweep_step rmfail fs g perm dry base d n c hfact hm hinv
    obtain ⟨rs, rg⟩ := r
    obtain ⟨s2, g2, hfold, hinv3⟩ := ih rg (addStats s rs)
      (fun t2 h2 => hts t2 (List.mem_cons_of_mem _ h2)) hinv2
    refine ⟨s2, g2, ?_, hinv3⟩
    unfold sweepFold
    rw [hr]
    exact hfold

/-- When the resolved logs base is a raw chain of real directories and
names are unique, the log sweep completes without exception and the
sweep invariant relates its result to the starting tree. -/
theorem clean_logs_ok (rmfail : FsNode → List String → FsNode) (fs : FsNode)
    (perm : Perm) (dry : Bool) (home : List String) (hn : nodupB fs = true)
    (hch : dirChainB fs (resolve fs (home ++ ["Library", "Logs"])) = true) :
    ∃ s g, clean_logs rmfail fs perm dry home = Except.ok (s, g) ∧ SweepInv fs g := by
  unfold clean_logs
  by_cases hex : existsB fs (home ++ ["Library", "Logs"]) = false
  · rw [if_pos hex]
    exact ⟨(0, 0, 0), fs, rfl, sweepInv_refl fs⟩
  · rw [if_neg hex]
    have hDC : DirChain fs (resolve fs (home ++ ["Library", "Logs"])) :=
      dirChain_of_b hch
    have hres : resolve fs (resolve fs (home ++ ["Library", "Logs"]))
        = resolve fs (home ++ ["Library", "Logs"]) := resolve_of_chain hDC
    obtain ⟨cs, hcs⟩ := hDC _ (List.prefix_refl _)
    have hts : ∀ t ∈ logTargets fs perm (resolve fs (home ++ ["Library", "Logs"])),
        ∃ d n c, t = d ++ [n] ∧ EntryFact fs (d, n, c) ∧ logMatch n = true := by
      intro t ht
      unfold logTargets at ht
      rw [hres, hcs] at ht
      rcases List.mem_filterMap.mp ht with ⟨e, he, hfe⟩
      by_cases hlm : logMatch e.2.1 = true
      · rw [if_pos hlm] at hfe
        injection hfe with hfe
        have hef := walkNode_facts fs perm hn _ (FsNode.dir cs) hcs hDC e he
        exact ⟨e.1, e.2.1, e.2.2, hfe.symm, hef, hlm⟩
      · rw [if_neg hlm] at hfe
        simp at hfe
    obtain ⟨s2, g2, hfold, hinv⟩ := sweepFold_inv rmfail perm dry
      (resolve fs (home ++ ["Library", "Logs"])) fs
      (logTargets fs perm (resolve fs (home ++ ["Library", "Logs"]))) fs (0, 0, 0)
      hts (sweepInv_refl fs)
    dsimp only
    rw [hfold]
    exact ⟨s2, g2, rfl, hinv⟩

theorem iter_entries_denied {fs : FsNode} {perm : Perm} {p : List String}
    (h : perm.readOk p = false) : iter_entries fs perm p = [] := by
  unfold iter_entries
  cases hl : lookupRaw fs (resolve fs p) with
  | none => rfl
  | some nd =>
    cases nd with
    | dir cs =>
      dsimp only
      rw [if_neg (by simp [h])]
    | file sz => rfl
    | symlink t sz => rfl

/-- The home-trash sweep with a denied enumeration: iter_entries
swallows the PermissionError inside the generator, the loop body runs
zero times, the except handler never fires, and the sweep returns zero
stats with the tree untouched and no fallback subprocess run. -/
theorem clean_trash_denied (rmfail : FsNode → List String → FsNode)
    (bridgeFx : FsNode → FsNode) (fs : FsNode) (perm : Perm) (dry : Bool)
    (home : List String)
    (hro : perm.readOk (resolve fs (home ++ [".Trash"])) = false) :
    clean_trash rmfail bridgeFx fs perm dry home
      = Except.ok ((0, 0, 0), fs, false) := by
  unfold clean_trash
  by_cases hex : existsB fs (home ++ [".Trash"]) = false
  · rw [if_pos hex]
  · rw [if_neg hex]
    dsimp only
    rw [show sweepTargets fs perm (resolve fs (home ++ [".Trash"])) = [] from by
      unfold sweepTargets
      rw [iter_entries_denied hro]
      rfl]
    rfl

/-- The fallback flag of the trash sweep is false on every successful
run: the only error class the sweep loop can raise is OsErr.other,
which the except PermissionError of the source does not catch, so the
osascript handler is unreachable. -/
theorem clean_trash_no_fallback (rmfail : FsNode → List String → FsNode)
    (bridgeFx : FsNode → FsNode) (fs : FsNode) (perm : Perm) (dry : Bool)
    (home : List String) (r : (Nat × Nat × Nat) × FsNode × Bool)
    (h : clean_trash rmfail bridgeFx fs perm dry home = Except.ok r) :
    r.2.2 = false := by
  unfold clean_trash at h
  by_cases hex : existsB fs (home ++ [".Trash"]) = false
  · rw [if_pos hex] at h
    injection h with h2
    rw [← h2]
  · rw [if_neg hex] at h
    dsimp only at h
    cases hsf : sweepFold rmfail perm dry (resolve fs (home ++ [".Trash"])) fs (0, 0, 0)
        (sweepTargets fs perm (resolve fs (home ++ [".Trash"]))) with
    | mk s rest =>
      obtain ⟨g, e?⟩ := rest
      rw [hsf] at h
      cases e? with
      | none =>
        injection h with h2
        rw [← h2]
      | some e =>
        have he := sweepFold_err _ _ _ _ _ _ hsf
        subst he
        exact absurd h (by simp)

theorem clean_caches_dry {rmfail : FsNode → List String → FsNode} {fs : FsNode}
    {perm : Perm} {home : List String} {r : (Nat × Nat × Nat) × FsNode}
    (h : clean_system_caches rmfail fs perm true home = Except.ok r) : r.2 = fs := by
  unfold clean_system_caches at h
  by_cases hex : existsB fs (home ++ ["Library", "Caches"]) = false
  · rw [if_pos hex] at h
    injection h with h2
    rw [← h2]
  · rw [if_neg hex] at h
    dsimp only at h
    cases hsf : sweepFold rmfail perm true (resolve fs (home ++ ["Library", "Caches"]))
        fs (0, 0, 0) (sweepTargets fs perm (resolve fs (home ++ ["Library", "Caches"]))) with
    | mk s rest =>
      obtain ⟨g, e2⟩ := rest
      rw [hsf] at h
      cases e2 with
      | none =>
        injection h with h2
        rw [← h2]
        exact sweepFold_dry_keeps _ _ _ _ _ _ hsf
      | some e =>
        exact absurd h (by simp)

theorem clean_logs_dry {rmfail : FsNode → List String → FsNode} {fs : FsNode}
    {perm : Perm} {home : List String} {r : (Nat × Nat × Nat) × FsNode}
    (h : clean_logs rmfail fs perm true home = Except.ok r) : r.2 = fs := by
  unfold clean_logs at h
  by_cases hex : existsB fs (home ++ ["Library", "Logs"]) = false
  · rw [if_pos hex] at h
    injection h with h2
    rw [← h2]
  · rw [if_neg hex] at h
    dsimp only at h
    cases hsf : sweepFold rmfail perm true (resolve fs (home ++ ["Library", "Logs"]))
        fs (0, 0, 0)
        (logTargets fs perm (resolve fs (home ++ ["Library", "Logs"]))) with
    | mk s rest =>
      obtain ⟨g, e2⟩ := rest
      rw [hsf] at h
      cases e2 with
      | none =>
        injection h with h2
        rw [← h2]
        exact sweepFold_dry_keeps _ _ _ _ _ _ hsf
      | some e =>
        exact absurd h (by simp)

theorem clean_trash_dry {rmfail : FsNode → List String → FsNode}
    {bridgeFx : FsNode → FsNode} {fs : FsNode} {perm : Perm} {home : List String}
    {r : (Nat × Nat × Nat) × FsNode × Bool}
    (h : clean_trash rmfail bridgeFx fs perm true home = Except.ok r) : r.2.1 = fs := by
  unfold clean_trash at h
  by_cases hex : existsB fs (home ++ [".Trash"]) = false
  · rw [if_pos hex] at h
    injection h with h2
    rw [← h2]
  · rw [if_neg hex] at h
    dsimp only at h
    cases hsf : sweepFold rmfail perm true (resolve fs (home ++ [".Trash"])) fs (0, 0, 0)
        (sweepTargets fs perm (resolve fs (home ++ [".Trash"]))) with
    | mk s rest =>
      obtain ⟨g, e2⟩ := rest
      rw [hsf] at h
      cases e2 with
      | none =>
        injection h with h2
        rw [← h2]
        exact sweepFold_dry_keeps _ _ _ _ _ _ hsf
      | some e =>
        have he := sweepFold_err _ _ _ _ _ _ hsf
        subst he
        exact absurd h (by simp)

theorem pvtFoldCand_ok {rmfail : FsNode → List String → FsNode} {perm : Perm}
    {dry : Bool} :
    ∀ (cs : List (List String)) (g : FsNode) (s : Nat × Nat × Nat) (had : Bool)
    (r : (Nat × Nat × Nat) × FsNode × Bool),
    pvtFoldCand rmfail perm dry g s had cs = Except.ok r →
    r.2.2 = had ∧ (dry = true → r.2.1 = g) := by
  intro cs
  induction cs with
  | nil =>
    intro g s had r h
    unfold pvtFoldCand at h
    injection h with h2
    rw [← h2]
    exact ⟨rfl, fun _ => rfl⟩
  | cons c cs2 ih =>
    intro g s had r h
    unfold pvtFoldCand at h
    by_cases hex : existsB g c = false
    · rw [if_pos hex] at h
      exact ih g s had r h
    · rw [if_neg hex] at h
      dsimp only at h
      cases hsf : sweepFold rmfail perm dry (resolve g c) g s
          (sweepTargets g perm (resolve g c)) with
      | mk s2 rest =>
        obtain ⟨g2, e2⟩ := rest
        rw [hsf] at h
        cases e2 with
        | none =>
          obtain ⟨hflag, hdry⟩ := ih g2 s2 had r h
          refine ⟨hflag, fun hd => ?_⟩
          rw [hdry hd]
          subst hd
          exact sweepFold_dry_keeps _ _ _ _ _ _ hsf
        | some e =>
          have he := sweepFold_err _ _ _ _ _ _ hsf
          subst he
          exact absurd h (by simp)

theorem pvtFoldVols_ok {rmfail : FsNode → List String → FsNode} {perm : Perm}
    {dry : Bool} {uidName : String} :
    ∀ (vs : List String) (g : FsNode) (s : Nat × Nat × Nat) (had : Bool)
    (r : (Nat × Nat × Nat) × FsNode × Bool),
    pvtFoldVols rmfail perm dry uidName g s had vs = Except.ok r →
    r.2.2 = had ∧ (dry = true → r.2.1 = g) := by
  intro vs
  induction vs with
  | nil =>
    intro g s had r h
    unfold pvtFoldVols at h
    injection h with h2
    rw [← h2]
    exact ⟨rfl, fun _ => rfl⟩
  | cons v vs2 ih =>
    intro g s had r h
    unfold pvtFoldVols at h
    by_cases hd1 : isDirB g ["Volumes", v] = false
    · rw [if_pos hd1] at h
      exact ih g s had r h
    · rw [if_neg hd1] at h
      cases hpc : pvtFoldCand rmfail perm dry g s had (pvtCandidates uidName v) with
      | ok t =>
        obtain ⟨s2, rest⟩ := t
        obtain ⟨g2, had2⟩ := rest
        rw [hpc] at h
        obtain ⟨hflag2, hdry2⟩ := pvtFoldCand_ok _ _ _ _ _ hpc
        obtain ⟨hflag, hdry⟩ := ih g2 s2 had2 r h
        refine ⟨by rw [hflag]; exact hflag2, fun hd => ?_⟩
        rw [hdry hd]
        exact hdry2 hd
      | error e =>
        rw [hpc] at h
        exact absurd h (by simp)

theorem clean_pvt_ok {rmfail : FsNode → List String → FsNode}
    {bridgeFx : FsNode → FsNode} {fs : FsNode} {perm : Perm} {dry : Bool}
    {uidName : String} {r : (Nat × Nat × Nat) × FsNode × Bool}
    (h : clean_per_volume_trash rmfail bridgeFx fs perm dry uidName = Except.ok r) :
    r.2.2 = false ∧ (dry = true → r.2.1 = fs) := by
  unfold clean_per_volume_trash at h
  by_cases h1 : isDirB fs ["Volumes"] = false
  · rw [if_pos h1] at h
    injection h with h2
    rw [← h2]
    exact ⟨rfl, fun _ => rfl⟩
  · rw [if_neg h1] at h
    by_cases h2 : perm.readOk (resolve fs ["Volumes"]) = false
    · rw [if_pos h2] at h
      exact absurd h (by simp)
    · rw [if_neg h2] at h
      cases hpv : pvtFoldVols rmfail perm dry uidName fs (0, 0, 0) false (volumeNames fs) with
      | ok t =>
        obtain ⟨s2, rest⟩ := t
        obtain ⟨g2, had2⟩ := rest
        rw [hpv] at h
        obtain ⟨hflag, hdry⟩ := pvtFoldVols_ok _ _ _ _ _ hpv
        have hf2 : had2 = false := hflag
        subst hf2
        dsimp only at h
        have hif : (if (false : Bool) = true then bridgeFx g2 else g2) = g2 :=
          if_neg (by simp)
        rw [hif] at h
        injection h with h3
        rw [← h3]
        exact ⟨rfl, fun hd => hdry hd⟩
      | error e =>
        rw [hpv] at h
        exact absurd h (by simp)


theorem statSize_all (e : List String × String × FsNode) :
    statSize permAll e = nodeSize e.2.2 := by
  show (if permAll.statOk (e.1 ++ [e.2.1]) = true then nodeSize e.2.2 else 0)
    = nodeSize e.2.2
  exact if_pos rfl

theorem walkFiles_sum_all (fs : FsNode) :
    ∀ (cs : List (String × FsNode)) (p : List String),
    ((walkFilesHere fs p cs).map (statSize permAll)).sum
      = (cs.map (fileSizeContrib fs)).sum := by
  intro cs
  induction cs with
  | nil => intro p; rfl
  | cons e rest ih =>
    intro p
    unfold walkFilesHere
    rw [List.filterMap_cons]
    cases hd : dirFollowB fs e.2 with
    | true =>
      rw [if_pos rfl]
      show ((walkFilesHere fs p rest).map (statSize permAll)).sum = _
      rw [ih p, List.map_cons, List.sum_cons]
      have h0 : fileSizeContrib fs e = 0 := by
        unfold fileSizeContrib
        rw [if_pos hd]
      rw [h0]
      omega
    | false =>
      rw [if_neg (by simp)]
      rw [List.map_cons, List.sum_cons]
      show statSize permAll (p, e.1, e.2)
          + ((walkFilesHere fs p rest).map (statSize permAll)).sum = _
      rw [ih p, List.map_cons, List.sum_cons]
      have h1 : fileSizeContrib fs e = nodeSize e.2 := by
        unfold fileSizeContrib
        rw [if_neg (by simp [hd])]
      rw [h1, statSize_all]

mutual

theorem walkNode_sum_all (fs : FsNode) :
    ∀ (nd : FsNode) (p : List String),
    ((walkNode fs permAll p nd).map (statSize permAll)).sum
      = (match nd with
         | FsNode.dir cs => reachSizeKids fs cs
         | _ => 0) := by
  intro nd p
  cases nd with
  | file sz => rfl
  | symlink t sz => rfl
  | dir cs =>
    show ((walkNode fs permAll p (FsNode.dir cs)).map (statSize permAll)).sum
      = reachSizeKids fs cs
    rw [walkNode, if_pos (show permAll.readOk p = true from rfl)]
    rw [List.map_append, List.sum_append]
    rw [walkFiles_sum_all fs cs p, walkSubs_sum_all fs cs p]
    clear p
    induction cs with
    | nil => rfl
    | cons e rest ihc =>
      rw [List.map_cons, List.sum_cons, List.map_cons, List.sum_cons]
      have hkid : reachSizeKids fs (e :: rest)
          = reachSize fs e.2 + reachSizeKids fs rest := by
        obtain ⟨n, c⟩ := e
        rfl
      rw [hkid]
      have hone : fileSizeContrib fs e + subSizeContrib fs e = reachSize fs e.2 := by
        unfold fileSizeContrib subSizeContrib
        cases he : e.2 with
        | file sz => simp [dirFollowB, nodeSize, reachSize]
        | symlink t sz =>
          unfold reachSize
          simp [nodeSize]
        | dir cs3 =>
          rw [if_pos (by simp [dirFollowB]), Nat.zero_add]
          rfl
      omega
termination_by nd _ => sizeOf nd

theorem walkSubs_sum_all (fs : FsNode) :
    ∀ (cs2 : List (String × FsNode)) (p : List String),
    ((walkSubs fs permAll p cs2).map (statSize permAll)).sum
      = (cs2.map (subSizeContrib fs)).sum := by
  intro cs2 p
  cases cs2 with
  | nil => rfl
  | cons e rest =>
    obtain ⟨n, c⟩ := e
    cases c with
    | file sz =>
      have h1 : walkSubs fs permAll p ((n, FsNode.file sz) :: rest)
          = walkSubs fs permAll p rest := rfl
      rw [h1, walkSubs_sum_all fs rest p, List.map_cons, List.sum_cons]
      have h2 : subSizeContrib fs (n, FsNode.file sz) = 0 := rfl
      rw [h2]
      omega
    | symlink t sz =>
      have h1 : walkSubs fs permAll p ((n, FsNode.symlink t sz) :: rest)
          = walkSubs fs permAll p rest := rfl
      rw [h1, walkSubs_sum_all fs rest p, List.map_cons, List.sum_cons]
      have h2 : subSizeContrib fs (n, FsNode.symlink t sz) = 0 := rfl
      rw [h2]
      omega
    | dir cs3 =>
      have h1 : walkSubs fs permAll p ((n, FsNode.dir cs3) :: rest)
          = walkNode fs permAll (p ++ [n]) (FsNode.dir cs3)
            ++ walkSubs fs permAll p rest := rfl
      rw [h1, List.map_append, List.sum_append]
      rw [walkSubs_sum_all fs rest p, List.map_cons, List.sum_cons]
      have h2 : subSizeContrib fs (n, FsNode.dir cs3) = reachSizeKids fs cs3 := rfl
      rw [h2]
      have h3 := walkNode_sum_all fs (FsNode.dir cs3) (p ++ [n])
      have h4 : (match FsNode.dir cs3 with
         | FsNode.dir cs => reachSizeKids fs cs
         | _ => 0) = reachSizeKids fs cs3 := rfl
      rw [h4] at h3
      rw [h3]
termination_by cs2 _ => sizeOf cs2

end

mutual

theorem walkNode_sum_le (fs : FsNode) (perm : Perm) :
    ∀ (nd : FsNode) (p : List String),
    ((walkNode fs perm p nd).map (statSize perm)).sum
      ≤ ((walkNode fs permAll p nd).map (statSize permAll)).sum := by
  intro nd p
  cases nd with
  | file sz => exact Nat.le_refl _
  | symlink t sz => exact Nat.le_refl _
  | dir cs =>
    simp only [walkNode]
    by_cases hr : perm.readOk p = true
    · rw [if_pos hr, if_pos (show permAll.readOk p = true from rfl)]
      rw [List.map_append, List.sum_append, List.map_append, List.sum_append]
      apply Nat.add_le_add
      · apply List.sum_le_sum
        intro e he
        rw [statSize_all]
        unfold statSize
        by_cases hs : perm.statOk (e.1 ++ [e.2.1]) = true
        · rw [if_pos hs]
        · rw [if_neg hs]
          exact Nat.zero_le _
      · exact walkSubs_sum_le fs perm cs p
    · rw [if_neg hr]
      exact Nat.zero_le _
termination_by nd _ => sizeOf nd

theorem walkSubs_sum_le (fs : FsNode) (perm : Perm) :
    ∀ (cs2 : List (String × FsNode)) (p : List String),
    ((walkSubs fs perm p cs2).map (statSize perm)).sum
      ≤ ((walkSubs fs permAll p cs2).map (statSize permAll)).sum := by
  intro cs2 p
  cases cs2 with
  | nil => exact Nat.le_refl _
  | cons e rest =>
    obtain ⟨n, c⟩ := e
    cases c with
    | file sz =>
      have h1 : walkSubs fs perm p ((n, FsNode.file sz) :: rest)
          = walkSubs fs perm p rest := rfl
      have h2 : walkSubs fs permAll p ((n, FsNode.file sz) :: rest)
          = walkSubs fs permAll p rest := rfl
      rw [h1, h2]
      exact walkSubs_sum_le fs perm rest p
    | symlink t sz =>
      have h1 : walkSubs fs perm p ((n, FsNode.symlink t sz) :: rest)
          = walkSubs fs perm p rest := rfl
      have h2 : walkSubs fs permAll p ((n, FsNode.symlink t sz) :: rest)
          = walkSubs fs permAll p rest := rfl
      rw [h1, h2]
      exact walkSubs_sum_le fs perm rest p
    | dir cs3 =>
      have h1 : walkSubs fs perm p ((n, FsNode.dir cs3) :: rest)
          = walkNode fs perm (p ++ [n]) (FsNode.dir cs3)
            ++ walkSubs fs perm p rest := rfl
      have h2 : walkSubs fs permAll p ((n, FsNode.dir cs3) :: rest)
          = walkNode fs permAll (p ++ [n]) (FsNode.dir cs3)
            ++ walkSubs fs permAll p rest := rfl
      rw [h1, h2, List.map_append, List.sum_append, List.map_append, List.sum_append]
      exact Nat.add_le_add (walkNode_sum_le fs perm (FsNode.dir cs3) (p ++ [n]))
        (walkSubs_sum_le fs perm rest p)
termination_by cs2 _ => sizeOf cs2

end

theorem get_dir_size_le (fs : FsNode) (perm : Perm) (p : List String) :
    get_dir_size fs perm p ≤ get_dir_size fs permAll p := by
  unfold get_dir_size
  dsimp only
  cases hl : lookupRaw fs (resolve fs p) with
  | none => exact Nat.le_refl 0
  | some nd => exact walkNode_sum_le fs perm nd (resolve fs p)

theorem get_dir_size_all {fs : FsNode} {p : List String} {cs : List (String × FsNode)}
    (h : lookupRaw fs (resolve fs p) = some (FsNode.dir cs)) :
    get_dir_size fs permAll p = reachSizeKids fs cs := by
  unfold get_dir_size
  dsimp only
  rw [h]
  have h3 := walkNode_sum_all fs (FsNode.dir cs) (resolve fs p)
  have h4 : (match FsNode.dir cs with
      | FsNode.dir cs2 => reachSizeKids fs cs2
      | _ => 0) = reachSizeKids fs cs := rfl
  rw [h4] at h3
  exact h3

theorem get_dir_size_missing {fs : FsNode} {perm : Perm} {p : List String}
    (h : lookupRaw fs (resolve fs p) = none) : get_dir_size fs perm p = 0 := by
  unfold get_dir_size
  dsimp only
  rw [h]

theorem insDesc_perm (x : List String × Nat) (l : List (List String × Nat)) :
    List.Perm (insDesc x l) (x :: l) := by
  induction l with
  | nil => exact List.Perm.refl _
  | cons y ys ih =>
    unfold insDesc
    by_cases h : y.2 ≤ x.2
    · rw [if_pos h]
    · rw [if_neg h]
      exact (List.Perm.cons y ih).trans (List.Perm.swap x y ys)

theorem sortDesc_perm (l : List (List String × Nat)) : List.Perm (sortDesc l) l := by
  induction l with
  | nil => exact List.Perm.refl _
  | cons x xs ih =>
    unfold sortDesc
    exact (insDesc_perm x (sortDesc xs)).trans (List.Perm.cons x ih)

theorem insDesc_sorted (x : List String × Nat) (l : List (List String × Nat))
    (hl : List.Pairwise (fun a b => b.2 ≤ a.2) l) :
    List.Pairwise (fun a b => b.2 ≤ a.2) (insDesc x l) := by
  induction l with
  | nil => exact List.pairwise_singleton _ x
  | cons y ys ih =>
    unfold insDesc
    rcases List.pairwise_cons.mp hl with ⟨hy, hys⟩
    by_cases h : y.2 ≤ x.2
    · rw [if_pos h]
      apply List.pairwise_cons.mpr
      refine ⟨?_, hl⟩
      intro z hz
      rcases List.mem_cons.mp hz with h1 | h2
      · rw [h1]; exact h
      · exact Nat.le_trans (hy z h2) h
    · rw [if_neg h]
      apply List.pairwise_cons.mpr
      refine ⟨?_, ih hys⟩
      intro z hz
      have hz2 := (insDesc_perm x ys).mem_iff.mp hz
      rcases List.mem_cons.mp hz2 with h1 | h2
      · rw [h1]
        exact Nat.le_of_lt (Nat.lt_of_not_le h)
      · exact hy z h2

theorem sortDesc_sorted (l : List (List String × Nat)) :
    List.Pairwise (fun a b => b.2 ≤ a.2) (sortDesc l) := by
  induction l with
  | nil => exact List.Pairwise.nil
  | cons x xs ih =>
    unfold sortDesc
    exact insDesc_sorted x (sortDesc xs) ih

theorem flSubs_of_mem {fs : FsNode} {perm : Perm} {m : Nat} {p : List String}
    {x : List String × Nat} {d : String} {cd : FsNode} :
    ∀ {cs2 : List (String × FsNode)}, (d, cd) ∈ cs2 →
    excludedNames.contains d = false →
    x ∈ flNode fs perm m (p ++ [d]) cd → x ∈ flSubs fs perm m p cs2 := by
  intro cs2
  induction cs2 with
  | nil => intro h; simp at h
  | cons e rest ih =>
    intro hmem hex hx
    rcases List.mem_cons.mp hmem with h1 | h2
    · subst h1
      cases cd with
      | file sz => simp [flNode] at hx
      | symlink t sz => simp [flNode] at hx
      | dir cs3 =>
        have h2 : flSubs fs perm m p ((d, FsNode.dir cs3) :: rest)
            = (if excludedNames.contains d then []
               else flNode fs perm m (p ++ [d]) (FsNode.dir cs3))
              ++ flSubs fs perm m p rest := rfl
        rw [h2, hex]
        simp only [Bool.false_eq_true, if_false]
        exact List.mem_append.mpr (Or.inl hx)
    · obtain ⟨n0, c0⟩ := e
      have h3 : x ∈ flSubs fs perm m p rest := ih h2 hex hx
      have h4 : flSubs fs perm m p ((n0, c0) :: rest)
          = (if excludedNames.contains n0 then []
             else match c0 with
               | FsNode.dir cs3 => flNode fs perm m (p ++ [n0]) (FsNode.dir cs3)
               | _ => [])
            ++ flSubs fs perm m p rest := by
        cases c0 <;> rfl
      rw [h4]
      exact List.mem_append.mpr (Or.inr h3)

theorem flReach_complete {fs : FsNode} {perm : Perm} {m : Nat}
    {p : List String} {nd : FsNode} {sub : List String} {n : String} {sz : Nat}
    (h : FlReach fs perm m p nd sub n sz) :
    (p ++ sub ++ [n], sz) ∈ flNode fs perm m p nd := by
  induction h with
  | here p cs n c hr hmem hdf hst hsz =>
    rw [flNode, if_pos hr]
    apply List.mem_append.mpr
    left
    apply List.mem_filterMap.mpr
    refine ⟨(n, c), hmem, ?_⟩
    rw [if_neg (by simp [hdf]), if_pos hst, if_pos hsz]
    have : p ++ [] ++ [n] = p ++ [n] := by simp
    rw [this]
  | deeper p cs d cd sub n sz hr hmem hex hin ih =>
    rw [flNode, if_pos hr]
    apply List.mem_append.mpr
    right
    have heq : p ++ (d :: sub) ++ [n] = (p ++ [d]) ++ sub ++ [n] := by simp
    rw [heq]
    exact flSubs_of_mem hmem hex ih

mutual

theorem flNode_sound (fs : FsNode) (perm : Perm) (m : Nat) :
    ∀ (nd : FsNode) (p : List String) (x : List String × Nat),
    x ∈ flNode fs perm m p nd →
    ∃ sub n, x.1 = p ++ sub ++ [n] ∧ FlReach fs perm m p nd sub n x.2 := by
  intro nd p x hx
  cases nd with
  | file sz => simp [flNode] at hx
  | symlink t sz => simp [flNode] at hx
  | dir cs =>
    rw [flNode] at hx
    by_cases hr : perm.readOk p = true
    · rw [if_pos hr] at hx
      rcases List.mem_append.mp hx with hf | hs
      · rcases List.mem_filterMap.mp hf with ⟨e, he, hfe⟩
        by_cases hdf : dirFollowB fs e.2 = true
        · rw [if_pos hdf] at hfe; simp at hfe
        · rw [if_neg hdf] at hfe
          by_cases hst : perm.statOk (p ++ [e.1]) = true
          · rw [if_pos hst] at hfe
            by_cases hsz : nodeSize e.2 > m
            · rw [if_pos hsz] at hfe
              injection hfe with hfe
              refine ⟨[], e.1, ?_, ?_⟩
              · rw [← hfe]
                simp
              · rw [← hfe]
                exact FlReach.here p cs e.1 e.2 hr he (by simpa using hdf) hst hsz
            · rw [if_neg hsz] at hfe; simp at hfe
          · rw [if_neg hst] at hfe; simp at hfe
      · obtain ⟨d, cd, sub, n, hmem, hex, hx1, hfl⟩ := flSubs_sound fs perm m cs p x hs
        refine ⟨d :: sub, n, by simp [hx1], ?_⟩
        exact FlReach.deeper p cs d cd sub n x.2 hr hmem hex hfl
    · rw [if_neg hr] at hx
      simp at hx
termination_by nd _ _ => sizeOf nd

theorem flSubs_sound (fs : FsNode) (perm : Perm) (m : Nat) :
    ∀ (cs2 : List (String × FsNode)) (p : List String) (x : List String × Nat),
    x ∈ flSubs fs perm m p cs2 →
    ∃ d cd sub n, (d, cd) ∈ cs2 ∧ excludedNames.contains d = false ∧
      x.1 = (p ++ [d]) ++ sub ++ [n] ∧ FlReach fs perm m (p ++ [d]) cd sub n x.2 := by
  intro cs2
  match cs2 with
  | [] =>
    intro p x hx
    simp [flSubs] at hx
  | (n0, FsNode.file sz) :: rest =>
    intro p x hx
    have hx2 : x ∈ (if excludedNames.contains n0 = true
        then ([] : List (List String × Nat)) else [])
        ++ flSubs fs perm m p rest := hx
    rcases List.mem_append.mp hx2 with hh | ht
    · by_cases hex : excludedNames.contains n0 = true
      · rw [if_pos hex] at hh
        simp at hh
      · rw [if_neg hex] at hh
        simp at hh
    · obtain ⟨d, cd, sub, n, hmem, hex, hx1, hfl⟩ := flSubs_sound fs perm m rest p x ht
      exact ⟨d, cd, sub, n, List.mem_cons_of_mem _ hmem, hex, hx1, hfl⟩
  | (n0, FsNode.symlink t sz) :: rest =>
    intro p x hx
    have hx2 : x ∈ (if excludedNames.contains n0 = true
        then ([] : List (List String × Nat)) else [])
        ++ flSubs fs perm m p rest := hx
    rcases List.mem_append.mp hx2 with hh | ht
    · by_cases hex : excludedNames.contains n0 = true
      · rw [if_pos hex] at hh
        simp at hh
      · rw [if_neg hex] at hh
        simp at hh
    · obtain ⟨d, cd, sub, n, hmem, hex, hx1, hfl⟩ := flSubs_sound fs perm m rest p x ht
      exact ⟨d, cd, sub, n, List.mem_cons_of_mem _ hmem, hex, hx1, hfl⟩
  | (n0, FsNode.dir cs3) :: rest =>
    intro p x hx
    have hx2 : x ∈ (if excludedNames.contains n0 = true
        then ([] : List (List String × Nat))
        else flNode fs perm m (p ++ [n0]) (FsNode.dir cs3))
        ++ flSubs fs perm m p rest := hx
    rcases List.mem_append.mp hx2 with hh | ht
    · by_cases hex : excludedNames.contains n0 = true
      · rw [if_pos hex] at hh
        simp at hh
      · rw [if_neg hex] at hh
        obtain ⟨sub, n, hx1, hfl⟩ :=
          flNode_sound fs perm m (FsNode.dir cs3) (p ++ [n0]) x hh
        exact ⟨n0, FsNode.dir cs3, sub, n, List.mem_cons_self _ _,
          by simpa using hex, hx1, hfl⟩
    · obtain ⟨d, cd, sub, n, hmem, hex, hx1, hfl⟩ := flSubs_sound fs perm m rest p x ht
      exact ⟨d, cd, sub, n, List.mem_cons_of_mem _ hmem, hex, hx1, hfl⟩
termination_by cs2 => sizeOf cs2

end

theorem flReach_props {fs : FsNode} {perm : Perm} {m : Nat} {p : List String}
    {nd : FsNode} {sub : List String} {n : String} {sz : Nat}
    (h : FlReach fs perm m p nd sub n sz) :
    sz > m ∧ perm.statOk (p ++ sub ++ [n]) = true
      ∧ ∀ d ∈ sub, excludedNames.contains d = false := by
  induction h with
  | here p cs n c hr hmem hdf hst hsz =>
    refine ⟨hsz, ?_, by simp⟩
    have : p ++ [] ++ [n] = p ++ [n] := by simp
    rw [this]
    exact hst
  | deeper p cs d cd sub n sz hr hmem hex hin ih =>
    obtain ⟨h1, h2, h3⟩ := ih
    refine ⟨h1, ?_, ?_⟩
    · have : p ++ (d :: sub) ++ [n] = (p ++ [d]) ++ sub ++ [n] := by simp
      rw [this]
      exact h2
    · intro d2 hd2
      rcases List.mem_cons.mp hd2 with h4 | h5
      · rw [h4]; exact hex
      · exact h3 d2 h5

theorem find_large_files_mem {fs : FsNode} {perm : Perm} {root : List String}
    {msz l : Nat} {x : List String × Nat}
    (hx : x ∈ find_large_files fs perm root msz l) :
    ∃ sub n, x.1 = resolve fs root ++ sub ++ [n]
      ∧ (∀ d ∈ sub, excludedNames.contains d = false)
      ∧ x.2 > msz * 1024 * 1024 ∧ perm.statOk x.1 = true := by
  unfold find_large_files at hx
  dsimp only at hx
  have hx2 : x ∈ sortDesc (match lookupRaw fs (resolve fs root) with
      | some nd => flNode fs perm (msz * 1024 * 1024) (resolve fs root) nd
      | none => []) := by
    by_cases hl : (l == 0) = true
    · rw [if_pos hl] at hx
      exact hx
    · rw [if_neg hl] at hx
      exact List.take_subset _ _ hx
  have hx3 := (sortDesc_perm _).mem_iff.mp hx2
  cases hL : lookupRaw fs (resolve fs root) with
  | none =>
    rw [hL] at hx3
    simp at hx3
  | some nd =>
    rw [hL] at hx3
    obtain ⟨sub, n, hx1, hfl⟩ := flNode_sound fs perm _ nd (resolve fs root) x hx3
    obtain ⟨hsz, hst, hexc⟩ := flReach_props hfl
    refine ⟨sub, n, hx1, hexc, hsz, ?_⟩
    rw [hx1]
    exact hst

theorem find_large_files_sorted (fs : FsNode) (perm : Perm) (root : List String)
    (msz l : Nat) :
    List.Pairwise (fun a b => b.2 ≤ a.2) (find_large_files fs perm root msz l) := by
  unfold find_large_files
  dsimp only
  by_cases hl : (l == 0) = true
  · rw [if_pos hl]
    exact sortDesc_sorted _
  · rw [if_neg hl]
    exact List.Pairwise.sublist (List.take_sublist _ _) (sortDesc_sorted _)

theorem find_large_files_len (fs : FsNode) (perm : Perm) (root : List String)
    (msz l : Nat) (hl : l ≠ 0) :
    (find_large_files fs perm root msz l).length ≤ l := by
  unfold find_large_files
  dsimp only
  rw [if_neg (by simpa using hl)]
  exact List.length_take_le _ _

theorem find_large_files_iff (fs : FsNode) (perm : Perm) (root : List String)
    (msz : Nat) (nd : FsNode) (x : List String × Nat)
    (hL : lookupRaw fs (resolve fs root) = some nd) :
    x ∈ find_large_files fs perm root msz 0
      ↔ ∃ sub n, x.1 = resolve fs root ++ sub ++ [n]
          ∧ FlReach fs perm (msz * 1024 * 1024) (resolve fs root) nd sub n x.2 := by
  unfold find_large_files
  dsimp only
  rw [if_pos (by simp), hL]
  constructor
  · intro hx
    have hx3 := (sortDesc_perm _).mem_iff.mp hx
    exact flNode_sound fs perm _ nd (resolve fs root) x hx3
  · intro hfl
    obtain ⟨sub, n, hx1, hfl2⟩ := hfl
    apply (sortDesc_perm _).mem_iff.mpr
    have hxe : x = (resolve fs root ++ sub ++ [n], x.2) := by
      rw [← hx1]
    rw [hxe]
    exact flReach_complete hfl2

/-- C1: for every base directory and every target whose resolved real
path is not equal to or a descendant of the resolved real path of the
base (the case of a symbolic link inside the base resolving outside it
included), _safe_delete returns (0, 0, 0) and the whole tree, the
target and everything outside the base included, is left untouched. -/
theorem c1_containment (rmfail : FsNode → List String → FsNode) (fs : FsNode)
    (perm : Perm) (dry : Bool) (base target : List String)
    (h : (resolve fs base).isPrefixOf (resolve fs target) = false) :
    safe_delete rmfail fs perm dry base target = Except.ok ((0, 0, 0), fs) :=
  sd_not_within h

/-- C1 witness: a symbolic link inside the base that resolves outside
it is skipped with zero stats and no change to the tree. -/
theorem c1_containment_witness :
    ((resolve fsC1 ["b"]).isPrefixOf (resolve fsC1 ["b", "s"]) = false)
    ∧ safe_delete (fun g _ => g) fsC1 permAll false ["b"] ["b", "s"]
      = Except.ok ((0, 0, 0), fsC1) :=
  ⟨by decide, c1_containment (fun g _ => g) fsC1 permAll false ["b"] ["b", "s"]
    (by decide)⟩

/-- C2 counterexample: on an unchanged tree holding one undeletable
directory entry, the dry run reports (5, 0, 1) while the immediately
following real run reports (0, 0, 0), because rmtree raises and the
handler returns zeros; the dry and real stats differ, refuting the
claimed dry-run versus real-run equality. -/
theorem c2_dry_vs_real_counterexample :
    safe_delete (fun g _ => g) fsC2 permC2 true ["b"] ["b", "d"]
      = Except.ok ((5, 0, 1), fsC2)
    ∧ safe_delete (fun g _ => g) fsC2 permC2 false ["b"] ["b", "d"]
      = Except.ok ((0, 0, 0), fsC2) :=
  ⟨rfl, rfl⟩

/-- C2 amended: a dry run never mutates the tree, for the delete
primitive and for all four sweeps; a sweep repeated in dry-run returns
the identical result both times; and for a single delete whose real
removal succeeds (unlink or rmtree permitted), the real run reports
exactly the stats the dry run reported. -/
theorem c2_dry_run_amended (rmfail : FsNode → List String → FsNode)
    (bridgeFx : FsNode → FsNode) (fs : FsNode) (perm : Perm) (home : List String)
    (uidName : String) :
    (∀ base target r, safe_delete rmfail fs perm true base target = Except.ok r →
      r.2 = fs)
    ∧ (∀ r, clean_system_caches rmfail fs perm true home = Except.ok r →
        r.2 = fs ∧ clean_system_caches rmfail r.2 perm true home = Except.ok r)
    ∧ (∀ r, clean_trash rmfail bridgeFx fs perm true home = Except.ok r →
        r.2.1 = fs ∧ clean_trash rmfail bridgeFx r.2.1 perm true home = Except.ok r)
    ∧ (∀ r, clean_logs rmfail fs perm true home = Except.ok r →
        r.2 = fs ∧ clean_logs rmfail r.2 perm true home = Except.ok r)
    ∧ (∀ r, clean_per_volume_trash rmfail bridgeFx fs perm true uidName = Except.ok r →
        r.2.1 = fs
        ∧ clean_per_volume_trash rmfail bridgeFx r.2.1 perm true uidName = Except.ok r)
    ∧ (∀ base target nd, is_within fs base target = true →
        lstatE fs perm target = Except.ok nd →
        (isDirN nd = false → perm.unlinkOk target = true →
          ∃ g, safe_delete rmfail fs perm true base target
              = Except.ok ((nodeSize nd, 1, 0), fs)
            ∧ safe_delete rmfail fs perm false base target
              = Except.ok ((nodeSize nd, 1, 0), g))
        ∧ (isDirN nd = true → perm.rmtreeOk target = true →
          ∃ g, safe_delete rmfail fs perm true base target
              = Except.ok ((get_dir_size fs perm target, 0, 1), fs)
            ∧ safe_delete rmfail fs perm false base target
              = Except.ok ((get_dir_size fs perm target, 0, 1), g))) := by
  refine ⟨?_, ?_, ?_, ?_, ?_, ?_⟩
  · intro base target r h
    exact sd_dry_keeps h
  · intro r h
    refine ⟨clean_caches_dry h, ?_⟩
    rw [clean_caches_dry h]
    exact h
  · intro r h
    refine ⟨clean_trash_dry h, ?_⟩
    rw [clean_trash_dry h]
    exact h
  · intro r h
    refine ⟨clean_logs_dry h, ?_⟩
    rw [clean_logs_dry h]
    exact h
  · intro r h
    refine ⟨(clean_pvt_ok h).2 rfl, ?_⟩
    rw [(clean_pvt_ok h).2 rfl]
    exact h
  · intro base target nd hw hl
    constructor
    · intro hd hu
      exact ⟨removeAt fs target, sd_dry_nondir hw hl hd, sd_real_nondir_ok hw hl hd hu⟩
    · intro hd hr
      exact ⟨removeAt fs target, sd_dry_dir hw hl hd, sd_real_dir_ok hw hl hd hr⟩

/-- C2 witness: on a concrete tree the dry delete of a plain file
reports (5, 1, 0) without mutating, and the real delete reports the
same stats. -/
theorem c2_dry_run_amended_witness :
    is_within fsC3 ["b"] ["b", "f"] = true
    ∧ safe_delete (fun g _ => g) fsC3 permAll true ["b"] ["b", "f"]
        = Except.ok ((5, 1, 0), fsC3)
    ∧ ∃ g, safe_delete (fun g _ => g) fsC3 permAll false ["b"] ["b", "f"]
        = Except.ok ((5, 1, 0), g) := by
  have h := ((c2_dry_run_amended (fun g _ => g) (fun g => g) fsC3 permAll []
    "u").2.2.2.2.2 ["b"] ["b", "f"] (FsNode.file 5) (by decide) rfl).1 rfl rfl
  obtain ⟨g, h1, h2⟩ := h
  exact ⟨by decide, h1, g, h2⟩

/-- C3: for a contained target, _safe_delete returns by lstat kind:
a regular file or symbolic link gives its own lstat size with counts
(1, 0) and is unlinked when not in dry-run; a real directory gives the
recursive size computed before deletion with counts (0, 1) and its
subtree is removed when not in dry-run; a target that no longer exists
gives (0, 0, 0). -/
theorem c3_delete_by_kind (rmfail : FsNode → List String → FsNode) (fs : FsNode)
    (perm : Perm) (dry : Bool) (base target : List String) :
    (∀ nd, is_within fs base target = true → lstatE fs perm target = Except.ok nd →
      isDirN nd = false → (dry = true ∨ perm.unlinkOk target = true) →
      safe_delete rmfail fs perm dry base target
        = Except.ok ((nodeSize nd, 1, 0), if dry = true then fs else removeAt fs target))
    ∧ (∀ nd, is_within fs base target = true → lstatE fs perm target = Except.ok nd →
        isDirN nd = true → (dry = true ∨ perm.rmtreeOk target = true) →
        safe_delete rmfail fs perm dry base target
          = Except.ok ((get_dir_size fs perm target, 0, 1),
              if dry = true then fs else removeAt fs target))
    ∧ (is_within fs base target = true →
        lstatE fs perm target = Except.error OsErr.enoent →
        safe_delete rmfail fs perm dry base target = Except.ok ((0, 0, 0), fs)) := by
  refine ⟨?_, ?_, ?_⟩
  · intro nd hw hl hd hdis
    cases dry with
    | true =>
      rw [if_bool_true]
      exact sd_dry_nondir hw hl hd
    | false =>
      rcases hdis with hcon | hu
      · exact absurd hcon (by simp)
      · rw [if_bool_false]
        exact sd_real_nondir_ok hw hl hd hu
  · intro nd hw hl hd hdis
    cases dry with
    | true =>
      rw [if_bool_true]
      exact sd_dry_dir hw hl hd
    | false =>
      rcases hdis with hcon | hr
      · exact absurd hcon (by simp)
      · rw [if_bool_false]
        exact sd_real_dir_ok hw hl hd hr
  · intro hw hl
    exact sd_enoent hw hl

/-- C3 witness: the real delete of a contained 5-byte file returns
(5, 1, 0) and removes exactly that entry. -/
theorem c3_delete_by_kind_witness :
    is_within fsC3 ["b"] ["b", "f"] = true
    ∧ lstatE fsC3 permAll ["b", "f"] = Except.ok (FsNode.file 5)
    ∧ safe_delete (fun g _ => g) fsC3 permAll false ["b"] ["b", "f"]
        = Except.ok ((5, 1, 0), removeAt fsC3 ["b", "f"]) := by
  have h := (c3_delete_by_kind (fun g _ => g) fsC3 permAll false ["b"] ["b", "f"]).1
    (FsNode.file 5) (by decide) rfl rfl (Or.inr rfl)
  rw [if_bool_false] at h
  exact ⟨by decide, rfl, h⟩

/-- C4 counterexample: a directory whose recursive removal fails (the
inner entry refuses deletion, so rmtree raises) makes the non-dry
delete return (0, 0, 0), although the size computed before the attempt
was 5; the claim that the pre-computed size is still returned is false
on the code. -/
theorem c4_partial_failure_counterexample :
    get_dir_size fsC2 permC2 ["b", "d"] = 5
    ∧ safe_delete (fun g _ => g) fsC2 permC2 false ["b"] ["b", "d"]
      = Except.ok ((0, 0, 0), fsC2) :=
  ⟨rfl, rfl⟩

/-- C4 amended: when the recursive removal of a contained directory
fails partway, the non-dry delete returns (0, 0, 0), the except handler
of the source discarding the size computed before the attempt. -/
theorem c4_partial_failure_amended (rmfail : FsNode → List String → FsNode)
    (fs : FsNode) (perm : Perm) (base target : List String) (nd : FsNode)
    (hw : is_within fs base target = true)
    (hl : lstatE fs perm target = Except.ok nd) (hd : isDirN nd = true)
    (hr : perm.rmtreeOk target = false) :
    safe_delete rmfail fs perm false base target
      = Except.ok ((0, 0, 0), rmfail fs target) :=
  sd_real_dir_fail hw hl hd hr

/-- C4 witness: the failing directory delete on the concrete tree. -/
theorem c4_partial_failure_witness :
    is_within fsC2 ["b"] ["b", "d"] = true
    ∧ permC2.rmtreeOk ["b", "d"] = false
    ∧ safe_delete (fun g _ => g) fsC2 permC2 false ["b"] ["b", "d"]
      = Except.ok ((0, 0, 0), fsC2) :=
  ⟨by decide, by decide,
    c4_partial_failure_amended (fun g _ => g) fsC2 permC2 ["b"] ["b", "d"]
      (FsNode.dir [("f", FsNode.file 5)]) (by decide) rfl rfl (by decide)⟩

/-- C5: the claimed fallback chain of the trash sweep is dead code.
iter_entries catches PermissionError inside its generator and
_safe_delete catches it around lstat, so when enumeration of the trash
root is denied the loop silently runs zero times, the sweep returns
zero stats with the tree untouched, and the osascript and sudo find
fallbacks never run on any successful sweep, against the claim that
denial invokes the fallback chain once per sweep. -/
theorem c5_trash_fallback_dead (rmfail : FsNode → List String → FsNode)
    (bridgeFx : FsNode → FsNode) (fs : FsNode) (perm : Perm) (dry : Bool)
    (home : List String)
    (hro : perm.readOk (resolve fs (home ++ [".Trash"])) = false) :
    clean_trash rmfail bridgeFx fs perm dry home = Except.ok ((0, 0, 0), fs, false)
    ∧ ∀ r, clean_trash rmfail bridgeFx fs perm dry home = Except.ok r →
        r.2.2 = false :=
  ⟨clean_trash_denied rmfail bridgeFx fs perm dry home hro,
    fun r h => clean_trash_no_fallback rmfail bridgeFx fs perm dry home r h⟩

/-- C5 witness: a trash root whose enumeration is denied yields zero
stats, an unchanged tree and no fallback invocation. -/
theorem c5_trash_fallback_dead_witness :
    permC5.readOk (resolve fsC5 ([] ++ [".Trash"])) = false
    ∧ (clean_trash (fun g _ => g) (fun g => g) fsC5 permC5 false []
        = Except.ok ((0, 0, 0), fsC5, false)
      ∧ ∀ r, clean_trash (fun g _ => g) (fun g => g) fsC5 permC5 false []
          = Except.ok r → r.2.2 = false) :=
  ⟨by decide, c5_trash_fallback_dead (fun g _ => g) (fun g => g) fsC5 permC5 false []
    (by decide)⟩

/-- C6 counterexample: a directory containing one symbolic link of own
size 7 whose target is a directory; the claimed sum over every regular
file and symbolic link is 7, but get_dir_size returns 0, because the
walk classifies the link as a directory, neither entering nor counting
it. -/
theorem c6_dir_size_counterexample :
    lookupRaw fsC6 (resolve fsC6 ["p"])
      = some (FsNode.dir [("s", FsNode.symlink ["t"] 7)])
    ∧ specTreeSize (FsNode.dir [("s", FsNode.symlink ["t"] 7)]) = 7
    ∧ get_dir_size fsC6 permAll ["p"] = 0
    ∧ get_dir_size fsC6 permAll ["p"]
      ≠ specTreeSize (FsNode.dir [("s", FsNode.symlink ["t"] 7)]) :=
  ⟨rfl, rfl, rfl, by decide⟩

/-- C6 amended: get_dir_size never throws (it is total); with every
stat and scandir permitted it equals the recursive sum in which regular
files and symbolic links to non-directories count their own size and
symbolic links resolving to directories count nothing; under any
permission oracle it is bounded by that fully-readable size; and a
missing root yields 0. -/
theorem c6_dir_size_amended (fs : FsNode) (perm : Perm) (p : List String) :
    (∀ cs, lookupRaw fs (resolve fs p) = some (FsNode.dir cs) →
      get_dir_size fs permAll p = reachSizeKids fs cs)
    ∧ get_dir_size fs perm p ≤ get_dir_size fs permAll p
    ∧ (lookupRaw fs (resolve fs p) = none → get_dir_size fs perm p = 0) :=
  ⟨fun _ h => get_dir_size_all h, get_dir_size_le fs perm p,
    fun h => get_dir_size_missing h⟩

/-- C6 witness: the amended sum evaluated on the concrete tree. -/
theorem c6_dir_size_amended_witness :
    lookupRaw fsC6 (resolve fsC6 ["p"])
      = some (FsNode.dir [("s", FsNode.symlink ["t"] 7)])
    ∧ get_dir_size fsC6 permAll ["p"]
      = reachSizeKids fsC6 [("s", FsNode.symlink ["t"] 7)] :=
  ⟨rfl, (c6_dir_size_amended fsC6 permAll ["p"]).1 _ rfl⟩

/-- C7: over a well-formed tree (unique names per directory, the
resolved logs root a chain of real directories), the log sweep
completes without exception and removes only file entries whose name
ends in a log or text extension: every directory of the starting tree
is still a directory afterwards, and every non-directory entry whose
name does not match the filter is untouched. -/
theorem c7_log_sweep_frame (rmfail : FsNode → List String → FsNode) (fs : FsNode)
    (perm : Perm) (dry : Bool) (home : List String) (hn : nodupB fs = true)
    (hch : dirChainB fs (resolve fs (home ++ ["Library", "Logs"])) = true) :
    ∃ s g, clean_logs rmfail fs perm dry home = Except.ok (s, g)
      ∧ (∀ p cs, lookupRaw fs p = some (FsNode.dir cs) →
          ∃ cs2, lookupRaw g p = some (FsNode.dir cs2))
      ∧ (∀ p nd, lookupRaw fs p = some nd → isDirN nd = false →
          logMatch (lastStr p) = false → lookupRaw g p = some nd) := by
  obtain ⟨s, g, h, hinv⟩ := clean_logs_ok rmfail fs perm dry home hn hch
  exact ⟨s, g, h, hinv.2.1, hinv.2.2⟩

/-- C7 witness: the frame property instantiated on a concrete logs tree
holding matching and non-matching files. -/
theorem c7_log_sweep_frame_witness :
    nodupB fsC7 = true
    ∧ dirChainB fsC7 (resolve fsC7 ([] ++ ["Library", "Logs"])) = true
    ∧ ∃ s g, clean_logs (fun g _ => g) fsC7 permAll false [] = Except.ok (s, g)
      ∧ (∀ p cs, lookupRaw fsC7 p = some (FsNode.dir cs) →
          ∃ cs2, lookupRaw g p = some (FsNode.dir cs2))
      ∧ (∀ p nd, lookupRaw fsC7 p = some nd → isDirN nd = false →
          logMatch (lastStr p) = false → lookupRaw g p = some nd) :=
  ⟨by decide, by decide,
    c7_log_sweep_frame (fun g _ => g) fsC7 permAll false [] (by decide) (by decide)⟩

/-- C8 counterexample: constructed elevated (euid 0) with SUDO_USER set
to a name absent from the password database, the engine reports no
failure at all: it silently falls back to the home of the current
process (the root home) and would operate there. -/
theorem c8_init_home_counterexample :
    init_home (some "ghost") 0 (fun _ => none) "/var/root" = "/var/root" :=
  rfl

/-- C8 amended: with a non-empty SUDO_USER, effective uid 0 and a
password database lookup that fails, the engine silently uses the home
directory of the current process; no explicit failure distinct from a
normal result is produced. -/
theorem c8_init_home_amended (u : String) (euid : Nat)
    (pwDir : String → Option String) (processHome : String)
    (hu : (u == "") = false) (he : euid = 0) (hp : pwDir u = none) :
    init_home (some u) euid pwDir processHome = processHome := by
  subst he
  simp [init_home, hu, hp]

/-- C8 witness: the silent fallback at a concrete unresolvable user. -/
theorem c8_init_home_amended_witness :
    (("nosuch" == "") = false) ∧ ((fun _ => (none : Option String)) "nosuch" = none)
    ∧ init_home (some "nosuch") 0 (fun _ => none) "/root" = "/root" :=
  ⟨by decide, rfl,
    c8_init_home_amended "nosuch" 0 (fun _ => none) "/root" (by decide) rfl rfl⟩

/-- C9 counterexample: an unset limit is not unlimited: the default of
the limit parameter is 20, so on a tree holding 21 files above the
threshold the finder called at its default returns 20 entries where a
zero limit returns all 21. -/
theorem c9_find_large_counterexample :
    find_large_files_default_limit = 20
    ∧ (find_large_files fsC9b permAll ["d"] 100
        find_large_files_default_limit).length = 20
    ∧ (find_large_files fsC9b permAll ["d"] 100 0).length = 21 :=
  ⟨rfl, rfl, rfl⟩

/-- C9 amended: every returned entry lies under the root along a path
avoiding the excluded names Library, System and .Trash, has
successfully statted own size strictly above min_size_mb * 1024 * 1024;
the result is sorted by size descending; a nonzero limit bounds its
length; and at limit zero (unlimited) the result holds exactly the
entries the pruned walk reaches; an explicitly zero limit means
unlimited, but the default of an unset limit is 20, not unlimited. -/
theorem c9_find_large_amended (fs : FsNode) (perm : Perm) (root : List String)
    (msz l : Nat) :
    (∀ x ∈ find_large_files fs perm root msz l,
      ∃ sub n, x.1 = resolve fs root ++ sub ++ [n]
        ∧ (∀ d ∈ sub, excludedNames.contains d = false)
        ∧ x.2 > msz * 1024 * 1024 ∧ perm.statOk x.1 = true)
    ∧ List.Pairwise (fun a b => b.2 ≤ a.2) (find_large_files fs perm root msz l)
    ∧ (l ≠ 0 → (find_large_files fs perm root msz l).length ≤ l)
    ∧ (∀ nd x, lookupRaw fs (resolve fs root) = some nd →
        (x ∈ find_large_files fs perm root msz 0
          ↔ ∃ sub n, x.1 = resolve fs root ++ sub ++ [n]
              ∧ FlReach fs perm (msz * 1024 * 1024) (resolve fs root) nd sub n x.2)) :=
  ⟨fun _ hx => find_large_files_mem hx,
    find_large_files_sorted fs perm root msz l,
    fun hl => find_large_files_len fs perm root msz l hl,
    fun nd x hL => find_large_files_iff fs perm root msz nd x hL⟩

/-- C9 witness: the scenario of the spec: a 150 MB file under an
excluded Library subtree and a 200 MB file elsewhere; exactly the
200 MB file is returned, and the length bound holds at limit 20. -/
theorem c9_find_large_amended_witness :
    ((20 : Nat) ≠ 0 → (find_large_files fsC9 permAll ["home"] 100 20).length ≤ 20)
    ∧ find_large_files fsC9 permAll ["home"] 100 20
      = [(["home", "big2"], 209715200)] :=
  ⟨(c9_find_large_amended fsC9 permAll ["home"] 100 20).2.2.1, rfl⟩

/-- C10 counterexample: a target whose path passes through a regular
file: lstat raises an OSError (ENOTDIR) that neither except clause of
_safe_delete catches, and the exception propagates to the caller
against the claim that the primitive is total. -/
theorem c10_totality_counterexample :
    is_within fsC10 ["b"] ["b", "f", "x"] = true
    ∧ safe_delete (fun g _ => g) fsC10 permAll false ["b"] ["b", "f", "x"]
      = Except.error OsErr.other :=
  ⟨rfl, rfl⟩

/-- C10 amended: whenever lstat of the target does not raise an error
of an uncaught class, _safe_delete returns normally; and on a contained
target found by lstat, every failure of the recursive removal or of the
unlink yields the triple (0, 0, 0). Lstat errors of uncaught classes
(ENOTDIR, ELOOP, ...) propagate out. -/
theorem c10_totality_amended (rmfail : FsNode → List String → FsNode) (fs : FsNode)
    (perm : Perm) (dry : Bool) (base target : List String) :
    (lstatE fs perm target ≠ Except.error OsErr.other →
      ∃ r, safe_delete rmfail fs perm dry base target = Except.ok r)
    ∧ (∀ nd, lstatE fs perm target = Except.ok nd →
        is_within fs base target = true →
        (isDirN nd = true → perm.rmtreeOk target = false →
          safe_delete rmfail fs perm false base target
            = Except.ok ((0, 0, 0), rmfail fs target))
        ∧ (isDirN nd = false → perm.unlinkOk target = false →
          safe_delete rmfail fs perm false base target
            = Except.ok ((0, 0, 0), fs))) := by
  constructor
  · intro hne
    by_cases hw : is_within fs base target = false
    · exact ⟨_, sd_not_within hw⟩
    · have hw2 := bool_not_false hw
      cases hl : lstatE fs perm target with
      | error e =>
        cases e with
        | enoent => exact ⟨_, sd_enoent hw2 hl⟩
        | eacces => exact ⟨_, sd_eacces hw2 hl⟩
        | other => exact absurd hl hne
      | ok nd =>
        cases hb : isDirN nd with
        | false =>
          cases dry with
          | true => exact ⟨_, sd_dry_nondir hw2 hl hb⟩
          | false =>
            cases hu : perm.unlinkOk target with
            | true => exact ⟨_, sd_real_nondir_ok hw2 hl hb hu⟩
            | false => exact ⟨_, sd_real_nondir_fail hw2 hl hb hu⟩
        | true =>
          cases dry with
          | true => exact ⟨_, sd_dry_dir hw2 hl hb⟩
          | false =>
            cases hr : perm.rmtreeOk target with
            | true => exact ⟨_, sd_real_dir_ok hw2 hl hb hr⟩
            | false => exact ⟨_, sd_real_dir_fail hw2 hl hb hr⟩
  · intro nd hl hw
    exact ⟨fun hd hr => sd_real_dir_fail hw hl hd hr,
      fun hd hu => sd_real_nondir_fail hw hl hd hu⟩

/-- C10 witness: a contained regular file whose unlink is refused:
the delete returns the zero triple normally. -/
theorem c10_totality_amended_witness :
    lstatE fsC10 permC10 ["b", "f"] = Except.ok (FsNode.file 1)
    ∧ is_within fsC10 ["b"] ["b", "f"] = true
    ∧ permC10.unlinkOk ["b", "f"] = false
    ∧ safe_delete (fun g _ => g) fsC10 permC10 false ["b"] ["b", "f"]
      = Except.ok ((0, 0, 0), fsC10) :=
  ⟨rfl, rfl, rfl,
    ((c10_totality_amended (fun g _ => g) fsC10 permC10 false ["b"] ["b", "f"]).2
      (FsNode.file 1) rfl rfl).2 rfl rfl⟩
